import Mathlib

/-!
# DuinoCollections — verification of the fixed-capacity container engine

A shallow embedding of the DuinoCollections C++ library (policy-driven
fixed-capacity collections for Arduino-class devices) together with proofs
about its operations.

The embedding follows the source files:
* `src/internal/LinearCollection.hpp` — the generic collection engine;
* `src/internal/policy/indexing/OrderedIndexingPolicy.hpp` and
  `SequentialIndexingPolicy.hpp` — the two placement policies;
* `src/internal/policy/duplication/AllowDuplicationPolicy.hpp` — the Allow
  duplication policy (the Forbid variant is referenced by the facades but its
  header is not in the sources; it is modelled from the spec);
* `FixedRingBuffer.hpp` — the circular buffer (reject mode; the overwrite
  mode documented in the README is modelled from the spec);
* `FixedMap.hpp` — the key/value pair wrapper and the map facade.

C++ `size_t` values are modelled as `Nat`; the guarded paths never rely on
wrap-around, and the reachability theorems show the guards are sufficient.
The backing array is a `List` whose length is the capacity; "live" cells are
the first `size` entries.  Out parameters of fallible operations become
`Option` results.
-/

namespace DuinoCollections

/-- `data[i]` for a backing array modelled as a list.  The C++ element type
must be default-initialisable, hence the `Inhabited` bound; reads are only
meaningful (and only proved about) in bounds. -/
def getE {α : Type} [Inhabited α] (data : List α) (i : Nat) : α :=
  data.getD i default

/-- Search result of `OrderedIndexingPolicy::find_insert_position`
(`OrderedIndexingPolicy.hpp`): the position where an item belongs and
whether an equal item already occupies it. -/
structure SearchResult where
  index : Nat
  found : Bool
deriving Repr, DecidableEq

/-- The binary-search loop shared by `get_push_index`, `find_index` and the
upper-bound computation of `remove_all` in `OrderedIndexingPolicy.hpp`:

    while (left < right) {
        size_t middle = left + ((right - left) >> 1);
        if (p(middle)) left = middle + 1; else right = middle;
    }
    return left;

`p middle` stands for the branch condition (`order(data[middle], item)` for
the lower bound, `!order(item, data[middle])` for the upper bound). -/
def bsearchLoop (p : Nat → Bool) (left right : Nat) : Nat :=
  if _h : left < right then
    if p (left + (right - left) / 2) then
      bsearchLoop p (left + (right - left) / 2 + 1) right
    else
      bsearchLoop p left (left + (right - left) / 2)
  else
    left
termination_by right - left
decreasing_by
  · have hd : (right - left) / 2 < right - left := Nat.div_lt_self (by omega) (by omega)
    omega
  · have hd : (right - left) / 2 < right - left := Nat.div_lt_self (by omega) (by omega)
    omega

section Policies

variable {α : Type} [Inhabited α]

/-- `OrderedIndexingPolicy::get_push_index`: lower-bound binary search under
the comparator `lt` (the `SortOrder` function object). -/
def ord_get_push_index (lt : α → α → Bool) (data : List α) (size : Nat) (item : α) : Nat :=
  bsearchLoop (fun middle => lt (getE data middle) item) 0 size

/-- `OrderedIndexingPolicy::find_index`: lower bound, then confirm equality
at that index (`index < size && data[index] == item`). -/
def ord_find_index (lt beq : α → α → Bool) (data : List α) (size : Nat) (item : α) : Nat :=
  let index := ord_get_push_index lt data size item
  if index < size && beq (getE data index) item then index else size

/-- `OrderedIndexingPolicy::find_insert_position`:
`found = index != size && item == data[index]`. -/
def ord_find_insert_position (lt beq : α → α → Bool) (data : List α) (size : Nat)
    (item : α) : SearchResult :=
  let index := ord_get_push_index lt data size item
  { index := index, found := index != size && beq item (getE data index) }

/-- The closing left shift of `OrderedIndexingPolicy::remove_all`:

    for (auto current_index = left; current_index < size; current_index++)
        data[current_index - count] = data[current_index];

The statement in the source is written
`data[current_index - count = data[current_index]];`, which is ill-formed
C++ (assignment to an rvalue); the form above is the one its documentation
and the spec describe, and the one every proof below uses. -/
def removeAllShiftLoop (data : List α) (count size current_index : Nat) : List α :=
  if current_index < size then
    removeAllShiftLoop (data.set (current_index - count) (getE data current_index))
      count size (current_index + 1)
  else
    data
termination_by size - current_index
decreasing_by omega

/-- `OrderedIndexingPolicy::remove_all`: lower-bound search via `find_index`,
early exit when the item is absent, upper-bound binary search, then one left
shift closing the gap.  Returns the mutated array and the removed count. -/
def ord_remove_all (lt beq : α → α → Bool) (data : List α) (size : Nat)
    (item : α) : List α × Nat :=
  let lower_bound := ord_find_index lt beq data size item
  if lower_bound == size || !beq item (getE data lower_bound) then
    (data, 0)
  else
    let left := bsearchLoop (fun middle => !lt item (getE data middle)) lower_bound size
    let count := left - lower_bound
    (removeAllShiftLoop data count size left, count)

/-- `BaseShiftIndexingPolicy::insert`'s right-shift loop
(`BaseShiftIndexingPolicy.hpp`):

    for (size_t current_index = size; current_index > target_index; --current_index)
        data[current_index] = data[current_index - 1];
-/
def shiftRightLoop (data : List α) (target_index current_index : Nat) : List α :=
  if target_index < current_index then
    shiftRightLoop (data.set current_index (getE data (current_index - 1)))
      target_index (current_index - 1)
  else
    data
termination_by current_index - target_index
decreasing_by omega

/-- `BaseShiftIndexingPolicy::insert`: right shift, then write the item at
the target index. -/
def bsp_insert (data : List α) (size target_index : Nat) (item : α) : List α :=
  (shiftRightLoop data target_index size).set target_index item

/-- `BaseShiftIndexingPolicy::remove`'s left-shift loop:

    for (size_t current_index = target_index; current_index < size - 1; ++current_index)
        data[current_index] = data[current_index + 1];
-/
def shiftLeftLoop (data : List α) (stop current_index : Nat) : List α :=
  if current_index < stop then
    shiftLeftLoop (data.set current_index (getE data (current_index + 1)))
      stop (current_index + 1)
  else
    data
termination_by stop - current_index
decreasing_by omega

/-- `BaseShiftIndexingPolicy::remove`: left shift over `[target, size-1)`. -/
def bsp_remove (data : List α) (size target_index : Nat) : List α :=
  shiftLeftLoop data (size - 1) target_index

/-- `BaseShiftIndexingPolicy::get_pop_index`: always `size - 1`.  In C++ this
is `size_t` arithmetic; the engine only calls it after the `is_empty` guard,
so no underflow occurs (proved below). -/
def bsp_get_pop_index (size : Nat) : Nat :=
  size - 1

/-- `SequentialIndexingPolicy::get_push_index`: append, i.e. `size`. -/
def seq_get_push_index (size : Nat) : Nat :=
  size

/-- The linear-scan loop of `SequentialIndexingPolicy::find_index`. -/
def seqFindLoop (beq : α → α → Bool) (data : List α) (size : Nat) (item : α)
    (i : Nat) : Nat :=
  if i < size then
    if beq (getE data i) item then i else seqFindLoop beq data size item (i + 1)
  else
    size
termination_by size - i
decreasing_by omega

/-- `SequentialIndexingPolicy::find_index`: first match or `size`. -/
def seq_find_index (beq : α → α → Bool) (data : List α) (size : Nat) (item : α) : Nat :=
  seqFindLoop beq data size item 0

/-- The single-pass compaction of `SequentialIndexingPolicy::remove_all`:

    size_t write = 0;
    for (size_t read = 0; read < size; ++read)
        if (!(data[read] == item)) data[write++] = data[read];
    return size - write;

Returns the mutated array and the final `write` cursor. -/
def seqCompactLoop (beq : α → α → Bool) (item : α) (size : Nat) (data : List α)
    (read write : Nat) : List α × Nat :=
  if read < size then
    if !beq (getE data read) item then
      seqCompactLoop beq item size (data.set write (getE data read)) (read + 1) (write + 1)
    else
      seqCompactLoop beq item size data (read + 1) write
  else
    (data, write)
termination_by size - read
decreasing_by
  · omega
  · omega

/-- `SequentialIndexingPolicy::remove_all`: compaction, returning the array
and the number of occurrences removed (`size - write`). -/
def seq_remove_all (beq : α → α → Bool) (data : List α) (size : Nat)
    (item : α) : List α × Nat :=
  let r := seqCompactLoop beq item size data 0 0
  (r.1, size - r.2)

/-- The capability contract every indexing policy implements
(`IndexingPolicy.hpp` header comment): where pushes, pops, finds and
removals happen, plus the shift primitives. -/
structure IndexingPolicy (α : Type) where
  IS_ORDERED : Bool
  get_push_index : List α → Nat → α → Nat
  insert : List α → Nat → Nat → α → List α
  get_pop_index : List α → Nat → Nat
  remove : List α → Nat → Nat → List α
  find_index : List α → Nat → α → Nat
  remove_all : List α → Nat → α → List α × Nat
  find_insert_position : List α → Nat → α → SearchResult

/-- The duplication-policy contract (`DuplicationPolicy.hpp`). -/
structure DuplicationPolicy (α : Type) where
  ALLOWS_DUPLICATES : Bool
  allows : List α → Nat → α → Bool

/-- `OrderedIndexingPolicy<T, SortOrder>` as a policy value; `lt` is the
comparator (`SortOrder`), `beq` the element equality `==`. -/
def OrderedIndexingPolicy (lt beq : α → α → Bool) : IndexingPolicy α where
  IS_ORDERED := true
  get_push_index := ord_get_push_index lt
  insert := bsp_insert
  get_pop_index := fun _ size => bsp_get_pop_index size
  remove := bsp_remove
  find_index := ord_find_index lt beq
  remove_all := ord_remove_all lt beq
  find_insert_position := ord_find_insert_position lt beq

/-- `SequentialIndexingPolicy<T>` as a policy value; `beq` is `==`. -/
def SequentialIndexingPolicy (beq : α → α → Bool) : IndexingPolicy α where
  IS_ORDERED := false
  get_push_index := fun _ size _ => seq_get_push_index size
  insert := bsp_insert
  get_pop_index := fun _ size => bsp_get_pop_index size
  remove := bsp_remove
  find_index := seq_find_index beq
  remove_all := seq_remove_all beq
  find_insert_position := fun _data size _item =>
    { index := seq_get_push_index size, found := true }

/-- `AllowDuplicationPolicy<T>`: always permits insertion. -/
def AllowDuplicationPolicy : DuplicationPolicy α where
  ALLOWS_DUPLICATES := true
  allows := fun _ _ _ => true

/-- Modelled from the spec: the Forbid duplication policy
(`ForbidDuplicationPolicy.hpp`is referenced by the facades but absent from
the sources).  Per spec section 4.3 it "permits insertion only if no live
element equals the candidate", i.e. a linear presence check. -/
def ForbidDuplicationPolicy (beq : α → α → Bool) : DuplicationPolicy α where
  ALLOWS_DUPLICATES := false
  allows := fun data size item => seq_find_index beq data size item == size

end Policies

/-- `Ascending<T>` from `SortingOrder.hpp`, instantiated at machine integers
(modelled as `Int`): `a < b`. -/
def ascendingInt (a b : Int) : Bool :=
  a < b

/-- `Descending<T>` from `SortingOrder.hpp` at `Int`: `a > b`. -/
def descendingInt (a b : Int) : Bool :=
  a > b

/-- `operator==` at `Int`. -/
def beqInt (a b : Int) : Bool :=
  a == b

/-- State of `Internal::LinearCollection<T, IndexingPolicy, DuplicationPolicy>`
(`LinearCollection.hpp`): `valid` models `_data != nullptr`, `data` the
backing array contents, `capacity` and `size` the two counters. -/
structure LinearCollection (α : Type) where
  valid : Bool
  capacity : Nat
  size : Nat
  data : List α
deriving Repr, DecidableEq

section Engine

variable {α : Type} [Inhabited α]

/-- The `LinearCollection` constructor:

    explicit LinearCollection(size_t capacity = 5)
        : _data{ capacity > 0 ? new T[capacity] : nullptr }
        , _capacity{ capacity }, _size{ 0 }
    { if (_data == nullptr) { _capacity = 0; } }

`allocOk` models whether `new T[capacity]` succeeds; a failed or zero-sized
allocation yields a degraded (capacity-0, invalid) instance. -/
def mkLinearCollection (α : Type) [Inhabited α] (capacity : Nat)
    (allocOk : Bool) : LinearCollection α :=
  if capacity > 0 && allocOk then
    { valid := true, capacity := capacity, size := 0,
      data := List.replicate capacity default }
  else
    { valid := false, capacity := 0, size := 0, data := [] }

namespace LinearCollection

/-- `is_valid()`: `_data != nullptr`. -/
def is_valid (c : LinearCollection α) : Bool :=
  c.valid

/-- `is_full()`: `_size >= _capacity`. -/
def is_full (c : LinearCollection α) : Bool :=
  c.size ≥ c.capacity

/-- `is_empty()`: `_size == 0`. -/
def is_empty (c : LinearCollection α) : Bool :=
  c.size == 0

/-- `clear()`: resets the size counter only. -/
def clear (c : LinearCollection α) : LinearCollection α :=
  { c with size := 0 }

/-- `find(item)`: delegated to the indexing policy. -/
def find (ip : IndexingPolicy α) (c : LinearCollection α) (item : α) : Nat :=
  ip.find_index c.data c.size item

/-- `contains(item)`: `find(item) != _size`. -/
def contains (ip : IndexingPolicy α) (c : LinearCollection α) (item : α) : Bool :=
  find ip c item != c.size

/-- `push(item)`: validity/fullness guards, then either the fused
ordered-unique binary search (`find_insert_position`) or the generic
placement-index plus duplication check, then `insert` and `_size++`.
Returns the new state and the success flag. -/
def push (ip : IndexingPolicy α) (dp : DuplicationPolicy α)
    (c : LinearCollection α) (item : α) : LinearCollection α × Bool :=
  if !is_valid c || is_full c then
    (c, false)
  else
    let r : Nat × Bool :=
      if ip.IS_ORDERED && !dp.ALLOWS_DUPLICATES then
        let res := ip.find_insert_position c.data c.size item
        (res.index, !res.found)
      else
        (ip.get_push_index c.data c.size item, dp.allows c.data c.size item)
    if !r.2 then
      (c, false)
    else
      ({ c with data := ip.insert c.data c.size r.1 item, size := c.size + 1 }, true)

/-- `pop(out_value)`: guards, then copies the pop-index element out, removes
it and decrements size.  The C++ out parameter becomes an `Option` result
(`none` on failure, when the out slot is left untouched). -/
def pop (ip : IndexingPolicy α) (c : LinearCollection α) :
    LinearCollection α × Option α :=
  if !is_valid c || is_empty c then
    (c, none)
  else
    let index := ip.get_pop_index c.data c.size
    ({ c with data := ip.remove c.data c.size index, size := c.size - 1 },
      some (getE c.data index))

/-- `push_atomic(item)`: `push` inside a `ScopedInterruptLock` critical
section.  Disabling and restoring interrupts has no effect on the
single-context functional semantics, so the state transformation is that of
`push`. -/
def push_atomic (ip : IndexingPolicy α) (dp : DuplicationPolicy α)
    (c : LinearCollection α) (item : α) : LinearCollection α × Bool :=
  push ip dp c item

/-- `pop_atomic(out_value)`: `pop` inside a critical section; see
`push_atomic`. -/
def pop_atomic (ip : IndexingPolicy α) (c : LinearCollection α) :
    LinearCollection α × Option α :=
  pop ip c

/-- `insert_at(item, index)`: fails when invalid, full, rejected by the
duplication policy, or `index > _size`; otherwise shifts and inserts at the
explicit index. -/
def insert_at (ip : IndexingPolicy α) (dp : DuplicationPolicy α)
    (c : LinearCollection α) (item : α) (index : Nat) : LinearCollection α × Bool :=
  if !is_valid c || is_full c || !dp.allows c.data c.size item || index > c.size then
    (c, false)
  else
    ({ c with data := ip.insert c.data c.size index item, size := c.size + 1 }, true)

/-- `remove_at(index, out_item)`: fails when invalid, empty or
`index >= _size`; otherwise copies the element out and removes it. -/
def remove_at (ip : IndexingPolicy α) (c : LinearCollection α) (index : Nat) :
    LinearCollection α × Option α :=
  if !is_valid c || is_empty c || index ≥ c.size then
    (c, none)
  else
    ({ c with data := ip.remove c.data c.size index, size := c.size - 1 },
      some (getE c.data index))

/-- `remove_first(item)`: guards, policy `find_index`, fail when absent,
otherwise remove at the found index. -/
def remove_first (ip : IndexingPolicy α) (c : LinearCollection α) (item : α) :
    LinearCollection α × Bool :=
  if !is_valid c || is_empty c then
    (c, false)
  else
    let index := ip.find_index c.data c.size item
    if index == c.size then
      (c, false)
    else
      ({ c with data := ip.remove c.data c.size index, size := c.size - 1 }, true)

/-- `remove_all(item)`: guards, then the policy's `remove_all`;
`_size -= count; return count > 0;`. -/
def remove_all (ip : IndexingPolicy α) (c : LinearCollection α) (item : α) :
    LinearCollection α × Bool :=
  if !is_valid c || is_empty c then
    (c, false)
  else
    let r := ip.remove_all c.data c.size item
    ({ c with data := r.1, size := c.size - r.2 }, r.2 > 0)

/-- The live prefix: the first `size` cells of the backing array
(spec glossary, "Live range"). -/
def live (c : LinearCollection α) : List α :=
  c.data.take c.size

end LinearCollection

end Engine

/-- State of `FixedRingBuffer<T>` (`FixedRingBuffer.hpp`): capacity/size
counters plus `head` (oldest element) and `tail` (next write). -/
structure FixedRingBuffer (α : Type) where
  valid : Bool
  capacity : Nat
  size : Nat
  head : Nat
  tail : Nat
  data : List α
deriving Repr, DecidableEq

section Ring

variable {α : Type} [Inhabited α]

/-- The `FixedRingBuffer` constructor: same allocation and degradation model
as `LinearCollection` (capacity coerced to 0 when `_data` is null). -/
def mkFixedRingBuffer (α : Type) [Inhabited α] (max_capacity : Nat)
    (allocOk : Bool) : FixedRingBuffer α :=
  if max_capacity > 0 && allocOk then
    { valid := true, capacity := max_capacity, size := 0, head := 0, tail := 0,
      data := List.replicate max_capacity default }
  else
    { valid := false, capacity := 0, size := 0, head := 0, tail := 0, data := [] }

namespace FixedRingBuffer

/-- `is_valid()`. -/
def is_valid (b : FixedRingBuffer α) : Bool :=
  b.valid

/-- `is_full()`: `_size >= _capacity`. -/
def is_full (b : FixedRingBuffer α) : Bool :=
  b.size ≥ b.capacity

/-- `is_empty()`: `_size == 0`. -/
def is_empty (b : FixedRingBuffer α) : Bool :=
  b.size == 0

/-- `next(index)`: `(index + 1) % _capacity`. -/
def next (b : FixedRingBuffer α) (index : Nat) : Nat :=
  (index + 1) % b.capacity

/-- `prev(index)`: `(index + _capacity - 1) % _capacity`. -/
def prev (b : FixedRingBuffer α) (index : Nat) : Nat :=
  (index + b.capacity - 1) % b.capacity

/-- `physical_index(logical)`: `(_head + logical_index) % _capacity`. -/
def physical_index (b : FixedRingBuffer α) (logical_index : Nat) : Nat :=
  (b.head + logical_index) % b.capacity

/-- `push(item)` in the default reject mode: fails when invalid or full,
otherwise writes at `tail`, advances `tail`, increments size. -/
def push (b : FixedRingBuffer α) (item : α) : FixedRingBuffer α × Bool :=
  if !is_valid b || is_full b then
    (b, false)
  else
    ({ b with
        data := b.data.set b.tail item
        tail := next b b.tail
        size := b.size + 1 }, true)

/-- `pop(out_value)`: fails when invalid or empty, otherwise reads at
`head`, advances `head`, decrements size. -/
def pop (b : FixedRingBuffer α) : FixedRingBuffer α × Option α :=
  if !is_valid b || is_empty b then
    (b, none)
  else
    ({ b with head := next b b.head, size := b.size - 1 },
      some (getE b.data b.head))

/-- `push_atomic`: `push` in a critical section (same functional state
change, see `LinearCollection.push_atomic`). -/
def push_atomic (b : FixedRingBuffer α) (item : α) : FixedRingBuffer α × Bool :=
  push b item

/-- `pop_atomic`: `pop` in a critical section. -/
def pop_atomic (b : FixedRingBuffer α) : FixedRingBuffer α × Option α :=
  pop b

/-- `clear()`: resets `size`, `head` and `tail`. -/
def clear (b : FixedRingBuffer α) : FixedRingBuffer α :=
  { b with size := 0, head := 0, tail := 0 }

/-- `at(index)` / `operator[]`: read at the physical index. -/
def atIndex (b : FixedRingBuffer α) (index : Nat) : α :=
  getE b.data (physical_index b index)

/-- The logical contents, oldest first: `at 0, ..., at (size-1)`. -/
def logicalList (b : FixedRingBuffer α) : List α :=
  (List.range b.size).map (atIndex b)

/-- Modelled from the spec: the overwrite-mode `push`.  The sources contain
only the reject-mode `FixedRingBuffer` (the `RingBufferMode::OVERWRITE`
variant appears in the README and the test sketches but its code is not in
the sources).  Spec section 4.7: "in overwrite mode, always succeeds, and
when full it advances `head` (discarding the oldest element) before writing
at `tail`"; the degraded-instance contract of section 4.1 (every mutating
operation on an invalid instance fails cleanly) is kept. -/
def push_overwrite (b : FixedRingBuffer α) (item : α) : FixedRingBuffer α × Bool :=
  if !is_valid b then
    (b, false)
  else
    let b1 :=
      if is_full b then { b with head := next b b.head, size := b.size - 1 } else b
    ({ b1 with
        data := b1.data.set b1.tail item
        tail := next b1 b1.tail
        size := b1.size + 1 }, true)

end FixedRingBuffer

end Ring

/-- `KeyValue<K, V>` (`FixedMap.hpp`): a value indexed by a unique,
comparable key; ordering and equality look only at the key. -/
structure KeyValue (K V : Type) where
  key : K
  value : V
deriving Repr, DecidableEq

instance {K V : Type} [Inhabited K] [Inhabited V] : Inhabited (KeyValue K V) :=
  ⟨{ key := default, value := default }⟩

section MapDefs

variable {K V : Type}

/-- `KeyValue::operator==`: `a.key == b.key`. -/
def kvEq (beqK : K → K → Bool) (a b : KeyValue K V) : Bool :=
  beqK a.key b.key

/-- `KeyValue::operator>`: `a.key > b.key`. -/
def kvGt (gtK : K → K → Bool) (a b : KeyValue K V) : Bool :=
  gtK a.key b.key

/-- `KeyValue::operator>=`: `a > b || a == b`. -/
def kvGe (gtK beqK : K → K → Bool) (a b : KeyValue K V) : Bool :=
  kvGt gtK a b || kvEq beqK a b

/-- `KeyValue::operator<`: `!(a >= b)`. -/
def kvLt (gtK beqK : K → K → Bool) (a b : KeyValue K V) : Bool :=
  !kvGe gtK beqK a b

end MapDefs

section MapOps

variable {V : Type} [Inhabited V]

/-- The comparator the map engine runs with:
`Ascending<KeyValue<K,V>>`, i.e. `KeyValue::operator<`, at `K = Nat`. -/
def mapLt (a b : KeyValue Nat V) : Bool :=
  kvLt (fun x y => x > y) (fun x y => x == y) a b

/-- `KeyValue` equality at `K = Nat`. -/
def mapEq (a b : KeyValue Nat V) : Bool :=
  kvEq (fun x y => x == y) a b

/-- The ordered-unique engine `FixedMap` instantiates:
`OrderedIndexingPolicy<KeyValue, Ascending<KeyValue>>` with the Forbid
duplication policy. -/
def mapIP (V : Type) [Inhabited V] : IndexingPolicy (KeyValue Nat V) :=
  OrderedIndexingPolicy mapLt mapEq

/-- The map's Forbid duplication policy over `KeyValue` equality. -/
def mapDP (V : Type) [Inhabited V] : DuplicationPolicy (KeyValue Nat V) :=
  ForbidDuplicationPolicy mapEq

/-- `FixedMap::add(key, value)`: `push(KeyValue{ key, value })`. -/
def FixedMap.add (m : LinearCollection (KeyValue Nat V)) (key : Nat) (value : V) :
    LinearCollection (KeyValue Nat V) × Bool :=
  LinearCollection.push (mapIP V) (mapDP V) m { key := key, value := value }

/-- `FixedMap::remove(key, out_val)`: find the key (probing with a
default-valued pair), then `remove_at`; the removed pair's value is
returned. -/
def FixedMap.remove (m : LinearCollection (KeyValue Nat V)) (key : Nat) :
    LinearCollection (KeyValue Nat V) × Option V :=
  let keyval : KeyValue Nat V := { key := key, value := default }
  let index := LinearCollection.find (mapIP V) m keyval
  if index == m.size then
    (m, none)
  else
    let r := LinearCollection.remove_at (mapIP V) m index
    (r.1, r.2.map KeyValue.value)

/-- `FixedMap::try_get(key, out_val)`: find, then read the stored pair's
value; the map itself is not modified (the C++ method only reads). -/
def FixedMap.try_get (m : LinearCollection (KeyValue Nat V)) (key : Nat) :
    Option V :=
  let index := LinearCollection.find (mapIP V) m { key := key, value := (default : V) }
  if index != m.size then some (getE m.data index).value else none

end MapOps

/-! ## Basic facts about `getE` and the binary-search loop -/

section BasicLemmas

variable {α : Type} [Inhabited α]

theorem getE_eq_getElem (data : List α) (i : Nat) (h : i < data.length) :
    getE data i = data[i] :=
  List.getD_eq_getElem data default h

theorem le_bsearchLoop (p : Nat → Bool) (left right : Nat) :
    left ≤ bsearchLoop p left right := by
  induction left, right using bsearchLoop.induct (p := p) with
  | case1 left right hlt hp ih =>
    rw [bsearchLoop]
    simp only [hlt, dif_pos, hp, if_pos]
    omega
  | case2 left right hlt hp ih =>
    rw [bsearchLoop]
    simp only [hlt, dif_pos]
    rw [if_neg hp]
    exact ih
  | case3 left right hlt =>
    rw [bsearchLoop]
    simp [hlt]

theorem bsearchLoop_le (p : Nat → Bool) (left right : Nat) (h : left ≤ right) :
    bsearchLoop p left right ≤ right := by
  induction left, right using bsearchLoop.induct (p := p) with
  | case1 left right hlt hp ih =>
    have hmid : left + (right - left) / 2 < right := by
      have hd : (right - left) / 2 < right - left := Nat.div_lt_self (by omega) (by omega)
      omega
    rw [bsearchLoop]
    simp only [hlt, dif_pos, hp, if_pos]
    exact ih (by omega)
  | case2 left right hlt hp ih =>
    have hmid : left + (right - left) / 2 < right := by
      have hd : (right - left) / 2 < right - left := Nat.div_lt_self (by omega) (by omega)
      omega
    rw [bsearchLoop]
    simp only [hlt, dif_pos]
    rw [if_neg hp]
    exact le_trans (ih (by omega)) (by omega)
  | case3 left right hlt =>
    rw [bsearchLoop]
    simp [hlt, h]

/-- Correctness of the shared binary-search loop: when the scanned predicate
is downward closed on `[left, right)`, the loop returns the frontier
position: `p` holds strictly below it and fails from it on. -/
theorem bsearchLoop_spec (p : Nat → Bool) (left right : Nat) :
    (∀ i j, left ≤ i → i ≤ j → j < right → p j = true → p i = true) →
    (∀ i, left ≤ i → i < bsearchLoop p left right → p i = true) ∧
    (∀ i, bsearchLoop p left right ≤ i → i < right → p i = false) := by
  induction left, right using bsearchLoop.induct (p := p) with
  | case1 left right hlt hp ih =>
    intro hmono
    have hmid : left + (right - left) / 2 < right := by
      have hd : (right - left) / 2 < right - left := Nat.div_lt_self (by omega) (by omega)
      omega
    rw [bsearchLoop]
    simp only [hlt, dif_pos, hp, if_pos]
    obtain ⟨ih1, ih2⟩ := ih fun i j hi hij hj hpj => hmono i j (by omega) hij hj hpj
    refine ⟨fun i hi hir => ?_, ih2⟩
    by_cases hcase : left + (right - left) / 2 + 1 ≤ i
    · exact ih1 i hcase hir
    · exact hmono i (left + (right - left) / 2) hi (by omega) hmid hp
  | case2 left right hlt hp ih =>
    intro hmono
    have hmid : left + (right - left) / 2 < right := by
      have hd : (right - left) / 2 < right - left := Nat.div_lt_self (by omega) (by omega)
      omega
    rw [bsearchLoop]
    simp only [hlt, dif_pos]
    rw [if_neg hp]
    obtain ⟨ih1, ih2⟩ := ih fun i j hi hij hj hpj => hmono i j hi hij (by omega) hpj
    refine ⟨ih1, fun i hri hir => ?_⟩
    by_cases hcase : i < left + (right - left) / 2
    · exact ih2 i hri hcase
    · refine Bool.eq_false_iff.mpr fun hpi => hp ?_
      exact hmono (left + (right - left) / 2) i (by
        have := le_bsearchLoop p left (left + (right - left) / 2)
        omega) (by omega) hir hpi
  | case3 left right hlt =>
    intro _hmono
    rw [bsearchLoop]
    simp only [hlt, dif_neg, not_false_iff]
    exact ⟨fun i hi hir => absurd (lt_of_le_of_lt hi hir) (lt_irrefl left),
      fun i hri hir => absurd (lt_of_le_of_lt hri hir) hlt⟩

end BasicLemmas

/-! ## Strict weak orders

The comparator contract of the ordered collections: `lt` is the `SortOrder`
predicate, `beq` the element equality, and elements compare equal exactly
when neither is less than the other (true of `Ascending`/`Descending` over
totally ordered element types, and of the key-only `KeyValue` operators). -/

structure IsStrictWeakOrder {α : Type} (lt beq : α → α → Bool) : Prop where
  lt_irrefl : ∀ a, lt a a = false
  lt_trans : ∀ a b c, lt a b = true → lt b c = true → lt a c = true
  beq_iff : ∀ a b, beq a b = true ↔ (lt a b = false ∧ lt b a = false)
  beq_trans : ∀ a b c, beq a b = true → beq b c = true → beq a c = true

namespace IsStrictWeakOrder

variable {α : Type} {lt beq : α → α → Bool}

theorem beq_refl (h : IsStrictWeakOrder lt beq) (a : α) : beq a a = true :=
  (h.beq_iff a a).mpr ⟨h.lt_irrefl a, h.lt_irrefl a⟩

theorem beq_symm (h : IsStrictWeakOrder lt beq) {a b : α} (hab : beq a b = true) : beq b a = true := by
  have := (h.beq_iff a b).mp hab
  exact (h.beq_iff b a).mpr ⟨this.2, this.1⟩

theorem lt_asymm (h : IsStrictWeakOrder lt beq) {a b : α} (hab : lt a b = true) : lt b a = false := by
  by_contra hba
  have hba' : lt b a = true := by
    cases hcase : lt b a
    · exact absurd hcase hba
    · rfl
  have := h.lt_trans a b a hab hba'
  rw [h.lt_irrefl a] at this
  exact Bool.false_ne_true this

theorem beq_of_not_lt (h : IsStrictWeakOrder lt beq) {a b : α} (hab : lt a b = false) (hba : lt b a = false) :
    beq a b = true :=
  (h.beq_iff a b).mpr ⟨hab, hba⟩

theorem not_lt_of_beq (h : IsStrictWeakOrder lt beq) {a b : α} (hab : beq a b = true) : lt a b = false :=
  ((h.beq_iff a b).mp hab).1

/-- `a < b` and `b ≈ c` give `a < c`. -/
theorem lt_of_lt_of_beq (h : IsStrictWeakOrder lt beq) {a b c : α} (hab : lt a b = true) (hbc : beq b c = true) :
    lt a c = true := by
  cases hac : lt a c
  · exfalso
    cases hca : lt c a
    · have hbeqac := h.beq_of_not_lt hac hca
      have hbeqab := h.beq_trans a c b hbeqac (h.beq_symm hbc)
      rw [h.not_lt_of_beq hbeqab] at hab
      exact Bool.false_ne_true hab
    · have hcb := h.lt_trans c a b hca hab
      rw [((h.beq_iff b c).mp hbc).2] at hcb
      exact Bool.false_ne_true hcb
  · rfl

/-- `a ≈ b` and `b < c` give `a < c`. -/
theorem lt_of_beq_of_lt (h : IsStrictWeakOrder lt beq) {a b c : α} (hab : beq a b = true) (hbc : lt b c = true) :
    lt a c = true := by
  cases hac : lt a c
  · exfalso
    cases hca : lt c a
    · have hbeqac := h.beq_of_not_lt hac hca
      have hbeqbc := h.beq_trans b a c (h.beq_symm hab) hbeqac
      rw [h.not_lt_of_beq hbeqbc] at hbc
      exact Bool.false_ne_true hbc
    · have hba := h.lt_trans b c a hbc hca
      rw [((h.beq_iff a b).mp hab).2] at hba
      exact Bool.false_ne_true hba
  · rfl

end IsStrictWeakOrder

/-! ## Characterisation of the shift loops -/

section ShiftLemmas

variable {α : Type}

theorem take_set_of_le (l : List α) (m n : Nat) (a : α) (h : n ≤ m) :
    (l.set m a).take n = l.take n := by
  rw [List.set_take]
  exact List.set_eq_of_length_le
    (le_trans (by simp [Nat.min_le_left n l.length]) h)

theorem drop_set_of_lt (l : List α) (m n : Nat) (a : α) (h : m < n) :
    (l.set m a).drop n = l.drop n := by
  rw [List.drop_set, if_pos h]

theorem drop_set_self (l : List α) (n : Nat) (a : α) (h : n < l.length) :
    (l.set n a).drop n = a :: l.drop (n + 1) := by
  rw [List.drop_set, if_neg (lt_irrefl n), Nat.sub_self,
    List.drop_eq_getElem_cons h]
  rfl

theorem take_succ_set_self (l : List α) (n : Nat) (a : α) (h : n < l.length) :
    (l.set n a).take (n + 1) = l.take n ++ [a] := by
  rw [List.set_take]
  have hlen : n < (l.take (n + 1)).length := by
    simp only [List.length_take]
    omega
  rw [List.set_eq_take_append_cons_drop, if_pos hlen, List.take_take,
    List.drop_take]
  simp [Nat.min_def]

variable [Inhabited α]

theorem length_shiftRightLoop (data : List α) (t ci : Nat) :
    (shiftRightLoop data t ci).length = data.length := by
  induction data, t, ci using shiftRightLoop.induct with
  | case1 data t ci hlt ih =>
    rw [shiftRightLoop, if_pos hlt]
    rw [ih, List.length_set]
  | case2 data t ci hlt =>
    rw [shiftRightLoop, if_neg hlt]

theorem length_shiftLeftLoop (data : List α) (stop ci : Nat) :
    (shiftLeftLoop data stop ci).length = data.length := by
  induction data, stop, ci using shiftLeftLoop.induct with
  | case1 data stop ci hlt ih =>
    rw [shiftLeftLoop, if_pos hlt]
    rw [ih, List.length_set]
  | case2 data stop ci hlt =>
    rw [shiftLeftLoop, if_neg hlt]

theorem length_removeAllShiftLoop (data : List α) (count size ci : Nat) :
    (removeAllShiftLoop data count size ci).length = data.length := by
  induction data, count, size, ci using removeAllShiftLoop.induct with
  | case1 data count size ci hlt ih =>
    rw [removeAllShiftLoop, if_pos hlt]
    rw [ih, List.length_set]
  | case2 data count size ci hlt =>
    rw [removeAllShiftLoop, if_neg hlt]

/-- What the right-shift loop of `BaseShiftIndexingPolicy::insert` computes:
cells `[0, t]` are untouched, cells `(t, ci]` receive the previous contents
of `[t, ci)`, cells past `ci` are untouched. -/
theorem shiftRightLoop_spec (data : List α) (t ci : Nat) :
    t ≤ ci → ci < data.length →
    shiftRightLoop data t ci =
      data.take (t + 1) ++ (data.drop t).take (ci - t) ++ data.drop (ci + 1) := by
  induction data, t, ci using shiftRightLoop.induct with
  | case1 data t ci hlt ih =>
    intro _h1 h2
    rw [shiftRightLoop, if_pos hlt]
    rw [ih (by omega) (by rw [List.length_set]; omega)]
    have e1 : (data.set ci (getE data (ci - 1))).take (t + 1) = data.take (t + 1) :=
      take_set_of_le _ _ _ _ (by omega)
    have e2 : ci - 1 + 1 = ci := by omega
    have e3 : (data.set ci (getE data (ci - 1))).drop ci =
        getE data (ci - 1) :: data.drop (ci + 1) :=
      drop_set_self _ _ _ h2
    have e4 : (data.set ci (getE data (ci - 1))).drop t =
        (data.drop t).set (ci - t) (getE data (ci - 1)) := by
      rw [List.drop_set, if_neg (by omega)]
    have e5 : ((data.drop t).set (ci - t) (getE data (ci - 1))).take (ci - 1 - t) =
        (data.drop t).take (ci - 1 - t) :=
      take_set_of_le _ _ _ _ (by omega)
    have e6 : (data.drop t).take (ci - t) =
        (data.drop t).take (ci - 1 - t) ++ [getE data (ci - 1)] := by
      have e7 : ci - t = (ci - 1 - t) + 1 := by omega
      rw [e7, List.take_succ]
      have h8 : ci - 1 - t < (data.drop t).length := by
        rw [List.length_drop]
        omega
      rw [List.getElem?_eq_getElem h8, List.getElem_drop]
      rw [getE_eq_getElem data (ci - 1) (by omega)]
      have e9 : t + (ci - 1 - t) = ci - 1 := by omega
      simp [e9]
    rw [e1, e2, e3, e4, e5, e6]
    simp [List.append_assoc]
  | case2 data t ci hlt =>
    intro h1 _h2
    have e0 : ci = t := by omega
    subst e0
    rw [shiftRightLoop, if_neg hlt]
    simp [List.take_append_drop]

/-- What the left-shift loop of `BaseShiftIndexingPolicy::remove` computes:
cells `[ci, stop)` receive the previous contents of `(ci, stop]`, all other
cells are untouched. -/
theorem shiftLeftLoop_spec (data : List α) (stop ci : Nat) :
    ci ≤ stop → stop < data.length →
    shiftLeftLoop data stop ci =
      data.take ci ++ (data.drop (ci + 1)).take (stop - ci) ++ data.drop stop := by
  induction data, stop, ci using shiftLeftLoop.induct with
  | case1 data stop ci hlt ih =>
    intro _h1 h2
    rw [shiftLeftLoop, if_pos hlt]
    rw [ih (by omega) (by rw [List.length_set]; omega)]
    have e1 : (data.set ci (getE data (ci + 1))).take (ci + 1) =
        data.take ci ++ [getE data (ci + 1)] :=
      take_succ_set_self _ _ _ (by omega)
    have e2 : (data.set ci (getE data (ci + 1))).drop (ci + 1 + 1) =
        data.drop (ci + 1 + 1) :=
      drop_set_of_lt _ _ _ _ (by omega)
    have e3 : (data.set ci (getE data (ci + 1))).drop stop = data.drop stop :=
      drop_set_of_lt _ _ _ _ (by omega)
    have e4 : (data.drop (ci + 1)).take (stop - ci) =
        getE data (ci + 1) :: (data.drop (ci + 1 + 1)).take (stop - (ci + 1)) := by
      rw [List.drop_eq_getElem_cons (show ci + 1 < data.length by omega)]
      have e5 : stop - ci = (stop - (ci + 1)) + 1 := by omega
      rw [e5, List.take_succ_cons]
      rw [getE_eq_getElem data (ci + 1) (by omega)]
    rw [e1, e2, e3, e4]
    simp [List.append_assoc]
  | case2 data stop ci hlt =>
    intro h1 _h2
    have e0 : ci = stop := by omega
    subst e0
    rw [shiftLeftLoop, if_neg hlt]
    simp [List.take_append_drop]

/-- What the closing shift of `remove_all` computes: cells
`[ci - count, size - count)` receive the previous contents of `[ci, size)`,
all other cells are untouched. -/
theorem removeAllShiftLoop_spec (data : List α) (count size ci : Nat) :
    count ≤ ci → ci ≤ size → size ≤ data.length →
    removeAllShiftLoop data count size ci =
      data.take (ci - count) ++ (data.drop ci).take (size - ci) ++
        data.drop (size - count) := by
  induction data, count, size, ci using removeAllShiftLoop.induct with
  | case1 data count size ci hlt ih =>
    intro h1 _h2 h3
    rw [removeAllShiftLoop, if_pos hlt]
    rw [ih (by omega) (by omega) (by rw [List.length_set]; omega)]
    have e1 : ci + 1 - count = (ci - count) + 1 := by omega
    have e2 : (data.set (ci - count) (getE data ci)).take ((ci - count) + 1) =
        data.take (ci - count) ++ [getE data ci] :=
      take_succ_set_self _ _ _ (by omega)
    have e3 : (data.set (ci - count) (getE data ci)).drop (ci + 1) =
        data.drop (ci + 1) :=
      drop_set_of_lt _ _ _ _ (by omega)
    have e4 : (data.set (ci - count) (getE data ci)).drop (size - count) =
        data.drop (size - count) :=
      drop_set_of_lt _ _ _ _ (by omega)
    have e5 : (data.drop ci).take (size - ci) =
        getE data ci :: (data.drop (ci + 1)).take (size - (ci + 1)) := by
      rw [List.drop_eq_getElem_cons (show ci < data.length by omega)]
      have e6 : size - ci = (size - (ci + 1)) + 1 := by omega
      rw [e6, List.take_succ_cons]
      rw [getE_eq_getElem data ci (by omega)]
    rw [e1, e2, e3, e4, e5]
    simp [List.append_assoc]
  | case2 data count size ci hlt =>
    intro h1 h2 _h3
    have e0 : ci = size := by omega
    subst e0
    rw [removeAllShiftLoop, if_neg hlt]
    simp [List.take_append_drop]

/-- `BaseShiftIndexingPolicy::insert` preserves the array length (writes
stay in bounds on the guarded paths). -/
theorem length_bsp_insert (data : List α) (size t : Nat) (item : α) :
    (bsp_insert data size t item).length = data.length := by
  rw [bsp_insert, List.length_set, length_shiftRightLoop]

theorem length_bsp_remove (data : List α) (size t : Nat) :
    (bsp_remove data size t).length = data.length := by
  rw [bsp_remove, length_shiftLeftLoop]

/-- Effect of `BaseShiftIndexingPolicy::insert` on the live prefix: the new
live prefix is the old one with `item` inserted at `t`. -/
theorem bsp_insert_live (data : List α) (size t : Nat) (item : α)
    (h1 : t ≤ size) (h2 : size < data.length) :
    (bsp_insert data size t item).take (size + 1) =
      (data.take size).take t ++ item :: (data.take size).drop t := by
  rw [bsp_insert, shiftRightLoop_spec data t size h1 h2]
  have lenA : (data.take (t + 1)).length = t + 1 := by
    simp only [List.length_take]
    omega
  have lenB : ((data.drop t).take (size - t)).length = size - t := by
    simp only [List.length_take, List.length_drop]
    omega
  have hset : t < (data.take (t + 1) ++ (data.drop t).take (size - t) ++
      data.drop (size + 1)).length := by
    simp only [List.length_append, lenA, lenB]
    omega
  rw [List.set_eq_take_append_cons_drop, if_pos hset]
  have e1 : ((data.take (t + 1) ++ (data.drop t).take (size - t) ++
      data.drop (size + 1)).take t) = data.take t := by
    rw [List.append_assoc, List.take_append_eq_append_take, lenA,
      Nat.sub_eq_zero_of_le (by omega), List.take_take, List.take_zero,
      List.append_nil]
    congr 1
    omega
  have e2 : ((data.take (t + 1) ++ (data.drop t).take (size - t) ++
      data.drop (size + 1)).drop (t + 1)) =
      (data.drop t).take (size - t) ++ data.drop (size + 1) := by
    rw [List.append_assoc, List.drop_append_eq_append_drop, lenA,
      Nat.sub_self, List.drop_zero, List.drop_of_length_le (by omega),
      List.nil_append]
  rw [e1, e2]
  have r1 : (data.take size).take t = data.take t := by
    rw [List.take_take]
    congr 1
    omega
  have r2 : (data.take size).drop t = (data.drop t).take (size - t) :=
    List.drop_take size t data
  rw [r1, r2, List.take_append_eq_append_take]
  have r3 : (data.take t).take (size + 1) = data.take t := by
    rw [List.take_take]
    congr 1
    omega
  have r4 : size + 1 - (data.take t).length = (size - t) + 1 := by
    simp only [List.length_take]
    omega
  rw [r3, r4, List.take_succ_cons, List.take_append_eq_append_take, lenB,
    Nat.sub_self, List.take_zero, List.append_nil,
    List.take_of_length_le (le_of_eq lenB)]

end ShiftLemmas

/-! ## Binary search over a sorted live prefix -/

/-- The live prefix is sorted for the comparator `lt`: no later element is
less than an earlier one (spec section 3: non-decreasing for ascending,
non-increasing for descending comparators). -/
def sortedB {α : Type} (lt : α → α → Bool) (l : List α) : Prop :=
  l.Pairwise fun a b => lt b a = false

section SortedSearch

variable {α : Type} [Inhabited α] {lt beq : α → α → Bool}

theorem sortedB_getE (hsort : sortedB lt (List.take size data)) (i j : Nat)
    (hij : i < j) (hj : j < size) (hlen : size ≤ data.length) :
    lt (getE data j) (getE data i) = false := by
  have hjlen : j < (List.take size data).length := by
    simp only [List.length_take]
    omega
  have hilen : i < (List.take size data).length := by omega
  have := (List.pairwise_iff_getElem.mp hsort) i j hilen hjlen hij
  rwa [List.getElem_take, List.getElem_take,
    ← getE_eq_getElem data i (by omega), ← getE_eq_getElem data j (by omega)] at this

/-- On a sorted prefix, `lt data[.] item` is downward closed: the
monotonicity the lower-bound search needs. -/
theorem lower_mono (h : IsStrictWeakOrder lt beq) (data : List α) (size : Nat)
    (item : α) (hsort : sortedB lt (List.take size data)) (hlen : size ≤ data.length) :
    ∀ i j, i ≤ j → j < size → lt (getE data j) item = true →
      lt (getE data i) item = true := by
  intro i j hij hj hpj
  rcases Nat.eq_or_lt_of_le hij with rfl | hlt
  · exact hpj
  · have hs : lt (getE data j) (getE data i) = false :=
      sortedB_getE hsort i j hlt hj hlen
    cases hcase : lt (getE data i) (getE data j)
    · exact h.lt_of_beq_of_lt (h.beq_of_not_lt hcase hs) hpj
    · exact h.lt_trans _ _ _ hcase hpj

/-- On a sorted prefix, `!lt item data[.]` is downward closed: the
monotonicity the upper-bound search needs. -/
theorem upper_mono (h : IsStrictWeakOrder lt beq) (data : List α) (size : Nat)
    (item : α) (hsort : sortedB lt (List.take size data)) (hlen : size ≤ data.length) :
    ∀ i j, i ≤ j → j < size → (!lt item (getE data j)) = true →
      (!lt item (getE data i)) = true := by
  intro i j hij hj hpj
  rcases Nat.eq_or_lt_of_le hij with rfl | hlt
  · exact hpj
  · rw [Bool.not_eq_true'] at hpj ⊢
    cases hcase : lt item (getE data i)
    · rfl
    · exfalso
      have hs : lt (getE data j) (getE data i) = false :=
        sortedB_getE hsort i j hlt hj hlen
      cases hcase2 : lt (getE data i) (getE data j)
      · have := h.lt_of_lt_of_beq hcase (h.beq_of_not_lt hcase2 hs)
        rw [hpj] at this
        exact Bool.false_ne_true this
      · have := h.lt_trans _ _ _ hcase hcase2
        rw [hpj] at this
        exact Bool.false_ne_true this

theorem get_push_index_le (lt : α → α → Bool) (data : List α) (size : Nat)
    (item : α) : ord_get_push_index lt data size item ≤ size :=
  bsearchLoop_le _ 0 size (Nat.zero_le _)

theorem find_index_le (lt beq : α → α → Bool) (data : List α) (size : Nat)
    (item : α) : ord_find_index lt beq data size item ≤ size := by
  rw [ord_find_index]
  by_cases hc : ord_get_push_index lt data size item < size ∧
      beq (getE data (ord_get_push_index lt data size item)) item = true
  · simp only [hc.1, hc.2, Bool.and_self, decide_True, if_pos]
    omega
  · by_cases h1 : ord_get_push_index lt data size item < size
    · have h2 : beq (getE data (ord_get_push_index lt data size item)) item = false := by
        cases hcase : beq (getE data (ord_get_push_index lt data size item)) item
        · rfl
        · exact absurd ⟨h1, hcase⟩ hc
      simp [h1, h2]
    · simp [h1]

/-- Correctness of `get_push_index` on a sorted prefix: it returns the lower
bound — everything strictly below it is `< item`, nothing from it on is. -/
theorem get_push_index_spec (h : IsStrictWeakOrder lt beq) (data : List α)
    (size : Nat) (item : α) (hsort : sortedB lt (List.take size data))
    (hlen : size ≤ data.length) :
    (∀ i, i < ord_get_push_index lt data size item →
      lt (getE data i) item = true) ∧
    (∀ i, ord_get_push_index lt data size item ≤ i → i < size →
      lt (getE data i) item = false) := by
  have hspec := bsearchLoop_spec (fun middle => lt (getE data middle) item) 0 size
    (fun i j _hi hij hj hpj => lower_mono h data size item hsort hlen i j hij hj hpj)
  exact ⟨fun i hi => hspec.1 i (Nat.zero_le i) hi, hspec.2⟩

/-- If some live cell is `beq`-equal to `item`, the lower bound lands on an
equal cell (equal cells form a contiguous block of a sorted prefix). -/
theorem get_push_index_found (h : IsStrictWeakOrder lt beq) (data : List α)
    (size : Nat) (item : α) (hsort : sortedB lt (List.take size data))
    (hlen : size ≤ data.length) (i : Nat) (hi : i < size)
    (hbeq : beq (getE data i) item = true) :
    ord_get_push_index lt data size item < size ∧
      beq (getE data (ord_get_push_index lt data size item)) item = true := by
  obtain ⟨hbelow, habove⟩ := get_push_index_spec h data size item hsort hlen
  set r := ord_get_push_index lt data size item with hr
  have hri : r ≤ i := by
    by_contra hcon
    have := hbelow i (by omega)
    rw [h.not_lt_of_beq hbeq] at this
    exact Bool.false_ne_true this
  have hrsize : r < size := by omega
  have h1 : lt (getE data r) item = false := habove r (le_refl r) hrsize
  have h2 : lt item (getE data r) = false := by
    cases hcase : lt item (getE data r)
    · rfl
    · exfalso
      rcases Nat.eq_or_lt_of_le hri with rfl | hlt
      · have := ((h.beq_iff _ _).mp hbeq).2
        rw [this] at hcase
        exact Bool.false_ne_true hcase
      · have hs : lt (getE data i) (getE data r) = false :=
          sortedB_getE hsort r i hlt hi hlen
        have := h.lt_of_beq_of_lt hbeq hcase
        rw [hs] at this
        exact Bool.false_ne_true this
  exact ⟨hrsize, h.beq_of_not_lt h1 h2⟩

/-- `find_index` on a sorted prefix succeeds exactly when some live cell is
equal to the item, and then returns the lower bound, which carries an equal
cell. -/
theorem find_index_spec (h : IsStrictWeakOrder lt beq) (data : List α)
    (size : Nat) (item : α) (hsort : sortedB lt (List.take size data))
    (hlen : size ≤ data.length) :
    (ord_find_index lt beq data size item < size ↔
      ∃ i, i < size ∧ beq (getE data i) item = true) ∧
    (ord_find_index lt beq data size item < size →
      ord_find_index lt beq data size item = ord_get_push_index lt data size item ∧
      beq (getE data (ord_find_index lt beq data size item)) item = true) := by
  constructor
  · constructor
    · intro hlt'
      rw [ord_find_index] at hlt'
      by_cases hc : ord_get_push_index lt data size item < size ∧
          beq (getE data (ord_get_push_index lt data size item)) item = true
      · exact ⟨ord_get_push_index lt data size item, hc.1, hc.2⟩
      · exfalso
        have : ¬ (ord_get_push_index lt data size item < size &&
            beq (getE data (ord_get_push_index lt data size item)) item) = true := by
          intro hcon
          rw [Bool.and_eq_true, decide_eq_true_iff] at hcon
          exact hc hcon
        rw [if_neg (by simpa using this)] at hlt'
        exact absurd hlt' (lt_irrefl size)
    · intro ⟨i, hi, hbeq⟩
      obtain ⟨hrsize, hrbeq⟩ :=
        get_push_index_found h data size item hsort hlen i hi hbeq
      rw [ord_find_index]
      simp only [hrsize, hrbeq, decide_True, Bool.and_self, if_pos]
  · intro hlt'
    by_cases hc : ord_get_push_index lt data size item < size ∧
        beq (getE data (ord_get_push_index lt data size item)) item = true
    · have heq : ord_find_index lt beq data size item =
          ord_get_push_index lt data size item := by
        simp [ord_find_index, hc.1, hc.2]
      rw [heq]
      exact ⟨rfl, hc.2⟩
    · exfalso
      rw [ord_find_index] at hlt'
      have hng : ¬ (ord_get_push_index lt data size item < size &&
          beq (getE data (ord_get_push_index lt data size item)) item) = true := by
        intro hcon
        rw [Bool.and_eq_true, decide_eq_true_iff] at hcon
        exact hc hcon
      rw [if_neg (by simpa using hng)] at hlt'
      exact absurd hlt' (lt_irrefl size)

end SortedSearch

/-! ## Sortedness preservation and `remove_all` on a sorted prefix -/

section SortedOps

variable {α : Type} [Inhabited α] {lt beq : α → α → Bool}

theorem sortedB_sublist {l1 l2 : List α} (hs : l1.Sublist l2)
    (h : sortedB lt l2) : sortedB lt l1 :=
  List.Pairwise.sublist hs h

theorem getE_take_eq (data : List α) (size i : Nat) (hi : i < size)
    (hlen : size ≤ data.length) :
    getE (data.take size) i = getE data i := by
  rw [getE_eq_getElem _ i (by simp only [List.length_take]; omega),
    getE_eq_getElem data i (by omega), List.getElem_take]

theorem mem_take_index (data : List α) (r : Nat) (a : α) (ha : a ∈ data.take r) :
    ∃ i, i < r ∧ i < data.length ∧ getE data i = a := by
  obtain ⟨n, hn, he⟩ := List.mem_iff_getElem.mp ha
  have hmin : n < min r data.length := by
    simpa [List.length_take] using hn
  refine ⟨n, by omega, by omega, ?_⟩
  rw [List.getElem_take] at he
  rw [getE_eq_getElem data n (by omega)]
  exact he

theorem mem_dropTake_index (data : List α) (r s : Nat) (b : α)
    (hb : b ∈ (data.drop r).take s) :
    ∃ j, r ≤ j ∧ j < r + s ∧ j < data.length ∧ getE data j = b := by
  obtain ⟨n, hn, he⟩ := List.mem_iff_getElem.mp hb
  have hmin : n < min s (data.length - r) := by
    simpa [List.length_take, List.length_drop] using hn
  refine ⟨r + n, by omega, by omega, by omega, ?_⟩
  rw [List.getElem_take, List.getElem_drop] at he
  rw [getE_eq_getElem data (r + n) (by omega)]
  exact he

/-- Inserting at the lower bound keeps the live prefix sorted. -/
theorem sorted_insert_lower (h : IsStrictWeakOrder lt beq) (data : List α)
    (size : Nat) (item : α) (hsort : sortedB lt (data.take size))
    (hlen : size ≤ data.length) :
    sortedB lt ((data.take size).take (ord_get_push_index lt data size item) ++
      item :: (data.take size).drop (ord_get_push_index lt data size item)) := by
  obtain ⟨hbelow, habove⟩ := get_push_index_spec h data size item hsort hlen
  have hrle : ord_get_push_index lt data size item ≤ size :=
    get_push_index_le lt data size item
  set r := ord_get_push_index lt data size item with hr
  have htake : (data.take size).take r = data.take r := by
    rw [List.take_take]
    congr 1
    omega
  have hdrop : (data.take size).drop r = (data.drop r).take (size - r) :=
    List.drop_take size r data
  rw [htake, hdrop, sortedB, List.pairwise_append]
  refine ⟨?_, ?_, ?_⟩
  · exact sortedB_sublist
      (htake ▸ List.take_sublist r (data.take size)) hsort
  · rw [List.pairwise_cons]
    constructor
    · intro b hb
      obtain ⟨j, hjr, hju, _hjlen, he⟩ := mem_dropTake_index data r (size - r) b hb
      rw [← he]
      exact habove j hjr (by omega)
    · exact sortedB_sublist (hdrop ▸ List.drop_sublist r (data.take size)) hsort
  · intro a ha b hb
    obtain ⟨i, hir, _hilen, hea⟩ := mem_take_index data r a ha
    have hlta : lt a item = true := hea ▸ hbelow i hir
    rcases List.mem_cons.mp hb with rfl | hbdrop
    · exact h.lt_asymm hlta
    · obtain ⟨j, hjr, hju, _hjlen, heb⟩ := mem_dropTake_index data r (size - r) b hbdrop
      rw [← hea, ← heb]
      exact sortedB_getE hsort i j (by omega) (by omega) hlen

/-- `take lb ++ drop u` (removal of a middle block) is a sublist, so it
stays sorted. -/
theorem takeDrop_sublist (l : List α) (lb u : Nat) (h : lb ≤ u) :
    (l.take lb ++ l.drop u).Sublist l := by
  have h1 : (l.drop u).Sublist (l.drop lb) := List.drop_sublist_drop_left l h
  have h2 := h1.append_left (l.take lb)
  rwa [List.take_append_drop] at h2

/-- `OrderedIndexingPolicy::remove_all` on a sorted prefix removes exactly
the contiguous `beq`-equal block: the new live prefix is the old one
filtered, the length of the backing array is unchanged, the count is the
number of equal cells, and the count is positive iff an equal cell
existed. -/
theorem ord_remove_all_spec (h : IsStrictWeakOrder lt beq) (data : List α)
    (size : Nat) (item : α) (hsort : sortedB lt (data.take size))
    (hlen : size ≤ data.length) :
    (ord_remove_all lt beq data size item).1.length = data.length ∧
    (ord_remove_all lt beq data size item).2 =
      size - ((data.take size).filter fun x => !beq x item).length ∧
    (ord_remove_all lt beq data size item).2 ≤ size ∧
    (ord_remove_all lt beq data size item).1.take
        (size - (ord_remove_all lt beq data size item).2) =
      ((data.take size).filter fun x => !beq x item) ∧
    ((ord_remove_all lt beq data size item).2 > 0 ↔
      ∃ i, i < size ∧ beq (getE data i) item = true) := by
  by_cases hpresent : ∃ i, i < size ∧ beq (getE data i) item = true
  · obtain ⟨iw, hiw, hbw⟩ := hpresent
    have hfind_lt : ord_find_index lt beq data size item < size :=
      (find_index_spec h data size item hsort hlen).1.mpr ⟨iw, hiw, hbw⟩
    obtain ⟨hfind_eq, hfind_beq⟩ :=
      (find_index_spec h data size item hsort hlen).2 hfind_lt
    set lb := ord_find_index lt beq data size item with hlb
    have hcond2 : beq item (getE data lb) = true := h.beq_symm hfind_beq
    set u := bsearchLoop (fun middle => !lt item (getE data middle)) lb size with hu
    have hlbu : lb ≤ u := le_bsearchLoop _ lb size
    have husize : u ≤ size := bsearchLoop_le _ lb size (le_of_lt hfind_lt)
    obtain ⟨hup1, hup2⟩ :=
      bsearchLoop_spec (fun middle => !lt item (getE data middle)) lb size
        (fun i j hi hij hj hpj => upper_mono h data size item hsort hlen i j hij hj hpj)
    have hlb_true : (!lt item (getE data lb)) = true := by
      rw [((h.beq_iff item (getE data lb)).mp hcond2).1]
      rfl
    have hlbu_strict : lb < u := by
      by_contra hcon
      have hfalse := hup2 lb (by omega) hfind_lt
      rw [hlb_true] at hfalse
      simp at hfalse
    have hra : ord_remove_all lt beq data size item =
        (removeAllShiftLoop data (u - lb) size u, u - lb) := by
      rw [ord_remove_all]
      simp only [← hlb, ← hu]
      rw [if_neg ?hneg]
      case hneg =>
        simp only [hcond2, Bool.not_true, Bool.or_false]
        simp only [beq_iff_eq]
        omega
    have hshift := removeAllShiftLoop_spec data (u - lb) size u (by omega) husize hlen
    have hlive' : (removeAllShiftLoop data (u - lb) size u).take (size - (u - lb)) =
        data.take lb ++ (data.drop u).take (size - u) := by
      rw [hshift]
      have e0 : u - (u - lb) = lb := by omega
      rw [e0, List.take_append_eq_append_take, List.take_append_eq_append_take]
      have l1 : (data.take lb).length = lb := by
        simp only [List.length_take]
        omega
      have e1 : (data.take lb).take (size - (u - lb)) = data.take lb := by
        rw [List.take_take]
        congr 1
        omega
      have l2 : ((data.drop u).take (size - u)).length = size - u := by
        simp only [List.length_take, List.length_drop]
        omega
      have e2 : ((data.drop u).take (size - u)).take (size - (u - lb) - (data.take lb).length) =
          (data.drop u).take (size - u) := by
        apply List.take_of_length_le
        rw [l2, l1]
        omega
      have e3 : size - (u - lb) -
          (data.take lb ++ (data.drop u).take (size - u)).length = 0 := by
        rw [List.length_append, l1, l2]
        omega
      rw [e1, e2, e3, List.take_zero, List.append_nil]
    have hsplit : data.take size = data.take lb ++
        ((data.drop lb).take (u - lb) ++ (data.drop u).take (size - u)) := by
      have s1 : data.take size = data.take lb ++ (data.drop lb).take (size - lb) := by
        conv_lhs => rw [show size = lb + (size - lb) by omega, List.take_add]
      have s2 : (data.drop lb).take (size - lb) =
          (data.drop lb).take (u - lb) ++
            ((data.drop lb).drop (u - lb)).take (size - u) := by
        conv_lhs => rw [show size - lb = (u - lb) + (size - u) by omega, List.take_add]
      have s3 : (data.drop lb).drop (u - lb) = data.drop u := by
        rw [List.drop_drop, show lb + (u - lb) = u by omega]
      rw [s1, s2, s3]
    have hfilter : ((data.take size).filter fun x => !beq x item) =
        data.take lb ++ (data.drop u).take (size - u) := by
      rw [hsplit, List.filter_append, List.filter_append]
      have f1 : ((data.take lb).filter fun x => !beq x item) = data.take lb := by
        rw [List.filter_eq_self]
        intro a ha
        obtain ⟨i, hir, _hilen, hea⟩ := mem_take_index data lb a ha
        have hlta : lt (getE data i) item = true :=
          (get_push_index_spec h data size item hsort hlen).1 i (hfind_eq ▸ hir)
        rw [← hea]
        cases hcase : beq (getE data i) item
        · rfl
        · exfalso
          have := h.not_lt_of_beq hcase
          rw [this] at hlta
          exact Bool.false_ne_true hlta
      have f2 : (((data.drop lb).take (u - lb)).filter fun x => !beq x item) = [] := by
        rw [List.filter_eq_nil_iff]
        intro b hb
        obtain ⟨j, hjlb, hju, _hjlen, heb⟩ := mem_dropTake_index data lb (u - lb) b hb
        have h1 : lt (getE data j) item = false :=
          (get_push_index_spec h data size item hsort hlen).2 j (hfind_eq ▸ hjlb)
            (by omega)
        have h2 : lt item (getE data j) = false := by
          have := hup1 j hjlb (by omega)
          rwa [Bool.not_eq_true'] at this
        have hbeqj : beq (getE data j) item = true := h.beq_of_not_lt h1 h2
        rw [← heb, hbeqj]
        simp
      have f3 : (((data.drop u).take (size - u)).filter fun x => !beq x item) =
          (data.drop u).take (size - u) := by
        rw [List.filter_eq_self]
        intro b hb
        obtain ⟨j, hju, hjsize, _hjlen, heb⟩ := mem_dropTake_index data u (size - u) b hb
        have h1 : lt item (getE data j) = true := by
          have := hup2 j hju (by omega)
          rwa [Bool.not_eq_false'] at this
        rw [← heb]
        cases hcase : beq (getE data j) item
        · rfl
        · exfalso
          have := ((h.beq_iff (getE data j) item).mp hcase).2
          rw [this] at h1
          exact Bool.false_ne_true h1
      rw [f1, f2, f3, List.nil_append]
    have hflen : ((data.take size).filter fun x => !beq x item).length =
        lb + (size - u) := by
      rw [hfilter, List.length_append]
      simp only [List.length_take, List.length_drop]
      omega
    rw [hra]
    refine ⟨length_removeAllShiftLoop data (u - lb) size u, ?_, ?_, ?_, ?_⟩
    · show u - lb = size - ((data.take size).filter fun x => !beq x item).length
      rw [hflen]
      omega
    · show u - lb ≤ size
      omega
    · show (removeAllShiftLoop data (u - lb) size u).take (size - (u - lb)) =
        ((data.take size).filter fun x => !beq x item)
      rw [hlive', hfilter]
    · show u - lb > 0 ↔ ∃ i, i < size ∧ beq (getE data i) item = true
      exact iff_of_true (by omega) ⟨iw, hiw, hbw⟩
  · have hnlt : ¬ ord_find_index lt beq data size item < size := fun hc =>
      hpresent ((find_index_spec h data size item hsort hlen).1.mp hc)
    have hfind : ord_find_index lt beq data size item = size := by
      have := find_index_le lt beq data size item
      omega
    have hra : ord_remove_all lt beq data size item = (data, 0) := by
      rw [ord_remove_all]
      simp only [hfind]
      rw [if_pos]
      simp
    have hfilter : ((data.take size).filter fun x => !beq x item) = data.take size := by
      rw [List.filter_eq_self]
      intro a ha
      obtain ⟨i, hir, _hilen, hea⟩ := mem_take_index data size a ha
      cases hcase : beq a item
      · rfl
      · exfalso
        exact hpresent ⟨i, hir, hea ▸ hcase⟩
    have hflen : ((data.take size).filter fun x => !beq x item).length = size := by
      rw [hfilter]
      simp only [List.length_take]
      omega
    rw [hra]
    refine ⟨rfl, ?_, ?_, ?_, ?_⟩
    · show (0 : Nat) = size - ((data.take size).filter fun x => !beq x item).length
      rw [hflen]
      omega
    · show (0 : Nat) ≤ size
      exact Nat.zero_le size
    · show data.take (size - 0) = ((data.take size).filter fun x => !beq x item)
      rw [hfilter]
      simp
    · show (0 : Nat) > 0 ↔ ∃ i, i < size ∧ beq (getE data i) item = true
      exact iff_of_false (by omega) hpresent

end SortedOps

/-! ## Engine operation lemmas -/

section EngineLemmas

variable {α : Type} [Inhabited α] {ip : IndexingPolicy α} {dp : DuplicationPolicy α}

open LinearCollection

theorem bool_guard_false {a b : Bool} (h : (!a || b) = false) :
    a = true ∧ b = false := by
  cases a <;> cases b <;> simp_all

theorem is_full_lt {c : LinearCollection α} (h : is_full c = false) :
    c.size < c.capacity := by
  simp only [is_full, decide_eq_false_iff_not, Nat.not_le] at h
  exact h

theorem is_empty_pos {c : LinearCollection α} (h : is_empty c = false) :
    0 < c.size := by
  simp only [is_empty, beq_eq_false_iff_ne, ne_eq] at h
  omega

/-- The placement index `push` uses: the fused search for the
ordered-unique combination, the policy's `get_push_index` otherwise
(the two branches of `LinearCollection::push`). -/
def pushIndex (ip : IndexingPolicy α) (dp : DuplicationPolicy α)
    (c : LinearCollection α) (item : α) : Nat :=
  if ip.IS_ORDERED && !dp.ALLOWS_DUPLICATES then
    (ip.find_insert_position c.data c.size item).index
  else
    ip.get_push_index c.data c.size item

/-- The admission flag `push` uses: `!found` for the ordered-unique
combination, the duplication policy's `allows` otherwise. -/
def pushAllowed (ip : IndexingPolicy α) (dp : DuplicationPolicy α)
    (c : LinearCollection α) (item : α) : Bool :=
  if ip.IS_ORDERED && !dp.ALLOWS_DUPLICATES then
    !(ip.find_insert_position c.data c.size item).found
  else
    dp.allows c.data c.size item

theorem push_eq_ite (c : LinearCollection α) (item : α) :
    LinearCollection.push ip dp c item =
      if (!is_valid c || is_full c) = true then (c, false)
      else if pushAllowed ip dp c item = false then (c, false)
      else ({ c with
          data := ip.insert c.data c.size (pushIndex ip dp c item) item
          size := c.size + 1 }, true) := by
  rw [LinearCollection.push, pushAllowed, pushIndex]
  split
  · rfl
  · dsimp only
    split
    · next hcomb =>
      split <;> simp_all
    · next hcomb =>
      split <;> simp_all

theorem push_invalid (c : LinearCollection α) (item : α) (h : c.valid = false) :
    LinearCollection.push ip dp c item = (c, false) := by
  rw [push_eq_ite, if_pos]
  simp [is_valid, h]

theorem push_full (c : LinearCollection α) (item : α) (h : c.capacity ≤ c.size) :
    LinearCollection.push ip dp c item = (c, false) := by
  rw [push_eq_ite, if_pos]
  simp [is_full, h]

theorem push_false_unchanged (c : LinearCollection α) (item : α)
    (h : (LinearCollection.push ip dp c item).2 = false) :
    (LinearCollection.push ip dp c item).1 = c := by
  rw [push_eq_ite] at h ⊢
  split at h
  · next hguard =>
    rw [if_pos hguard]
  · next hguard =>
    rw [if_neg hguard]
    split at h
    · next hallow =>
      rw [if_pos hallow]
    · simp at h

theorem push_success (c : LinearCollection α) (item : α)
    (h : (LinearCollection.push ip dp c item).2 = true) :
    c.valid = true ∧ c.size < c.capacity ∧ pushAllowed ip dp c item = true ∧
      (LinearCollection.push ip dp c item).1 =
        { c with
          data := ip.insert c.data c.size (pushIndex ip dp c item) item
          size := c.size + 1 } := by
  rw [push_eq_ite] at h ⊢
  split at h
  · simp at h
  · next h1 =>
    obtain ⟨hval, hfull⟩ := bool_guard_false (by simpa using h1)
    split at h
    · simp at h
    · next h2 =>
      rw [if_neg (by simpa using h1), if_neg h2]
      exact ⟨hval, is_full_lt hfull, by simpa using h2, rfl⟩

theorem pop_invalid_or_empty (c : LinearCollection α)
    (h : c.valid = false ∨ c.size = 0) :
    LinearCollection.pop ip c = (c, none) := by
  rw [LinearCollection.pop, if_pos]
  rcases h with h | h <;> simp [is_valid, is_empty, h]

theorem pop_success (c : LinearCollection α) {v : α}
    (h : (LinearCollection.pop ip c).2 = some v) :
    c.valid = true ∧ 0 < c.size ∧
      v = getE c.data (ip.get_pop_index c.data c.size) ∧
      (LinearCollection.pop ip c).1 =
        { c with
          data := ip.remove c.data c.size (ip.get_pop_index c.data c.size)
          size := c.size - 1 } := by
  rw [LinearCollection.pop] at h ⊢
  split at h
  · simp at h
  · next h1 =>
    obtain ⟨hval, hemp⟩ := bool_guard_false (by simpa using h1)
    rw [if_neg (by simpa using h1)]
    simp only [Option.some.injEq] at h
    exact ⟨hval, is_empty_pos hemp, h.symm, rfl⟩

theorem pop_none_unchanged (c : LinearCollection α)
    (h : (LinearCollection.pop ip c).2 = none) :
    (LinearCollection.pop ip c).1 = c := by
  rw [LinearCollection.pop] at h ⊢
  split at h
  · split
    · rfl
    · simp_all
  · simp at h

theorem insert_at_fail (c : LinearCollection α) (item : α) (index : Nat)
    (h : c.valid = false ∨ c.capacity ≤ c.size ∨
      dp.allows c.data c.size item = false ∨ c.size < index) :
    LinearCollection.insert_at ip dp c item index = (c, false) := by
  rw [LinearCollection.insert_at, if_pos]
  rcases h with h | h | h | h <;> simp [is_valid, is_full, h] <;> omega

theorem insert_at_false_unchanged (c : LinearCollection α) (item : α) (index : Nat)
    (h : (LinearCollection.insert_at ip dp c item index).2 = false) :
    (LinearCollection.insert_at ip dp c item index).1 = c := by
  rw [LinearCollection.insert_at] at h ⊢
  split at h
  · split
    · rfl
    · simp_all
  · simp at h

theorem insert_at_success (c : LinearCollection α) (item : α) (index : Nat)
    (h : (LinearCollection.insert_at ip dp c item index).2 = true) :
    c.valid = true ∧ c.size < c.capacity ∧ index ≤ c.size ∧
      (LinearCollection.insert_at ip dp c item index).1 =
        { c with
          data := ip.insert c.data c.size index item
          size := c.size + 1 } := by
  rw [LinearCollection.insert_at] at h ⊢
  split at h
  · simp at h
  · next h1 =>
    rw [if_neg h1]
    simp only [Bool.or_eq_true, not_or, Bool.not_eq_true] at h1
    obtain ⟨⟨⟨hval, hfull⟩, _hallow⟩, hidx⟩ := h1
    refine ⟨by simpa [is_valid] using hval, is_full_lt hfull, ?_, rfl⟩
    simp only [decide_eq_false_iff_not, Nat.not_lt] at hidx
    omega

theorem remove_at_fail (c : LinearCollection α) (index : Nat)
    (h : c.valid = false ∨ c.size = 0 ∨ c.size ≤ index) :
    LinearCollection.remove_at ip c index = (c, none) := by
  rw [LinearCollection.remove_at, if_pos]
  rcases h with h | h | h <;> simp [is_valid, is_empty, h] <;> omega

theorem remove_at_none_unchanged (c : LinearCollection α) (index : Nat)
    (h : (LinearCollection.remove_at ip c index).2 = none) :
    (LinearCollection.remove_at ip c index).1 = c := by
  rw [LinearCollection.remove_at] at h ⊢
  split at h
  · split
    · rfl
    · simp_all
  · simp at h

theorem remove_at_success (c : LinearCollection α) (index : Nat) {v : α}
    (h : (LinearCollection.remove_at ip c index).2 = some v) :
    c.valid = true ∧ 0 < c.size ∧ index < c.size ∧ v = getE c.data index ∧
      (LinearCollection.remove_at ip c index).1 =
        { c with
          data := ip.remove c.data c.size index
          size := c.size - 1 } := by
  rw [LinearCollection.remove_at] at h ⊢
  split at h
  · simp at h
  · next h1 =>
    rw [if_neg h1]
    simp only [Bool.or_eq_true, not_or, Bool.not_eq_true] at h1
    obtain ⟨⟨hval, hemp⟩, hidx⟩ := h1
    simp only [Option.some.injEq] at h
    refine ⟨by simpa [is_valid] using hval, is_empty_pos hemp, ?_, h.symm, rfl⟩
    simp only [decide_eq_false_iff_not, Nat.not_le] at hidx
    exact hidx

theorem remove_first_invalid_or_empty (c : LinearCollection α) (item : α)
    (h : c.valid = false ∨ c.size = 0) :
    LinearCollection.remove_first ip c item = (c, false) := by
  rw [LinearCollection.remove_first, if_pos]
  rcases h with h | h <;> simp [is_valid, is_empty, h]

theorem remove_first_false_unchanged (c : LinearCollection α) (item : α)
    (h : (LinearCollection.remove_first ip c item).2 = false) :
    (LinearCollection.remove_first ip c item).1 = c := by
  rw [LinearCollection.remove_first] at h ⊢
  split at h
  · split
    · rfl
    · simp_all
  · dsimp only at h ⊢
    split at h
    · split
      · rfl
      · simp_all
    · simp at h

theorem remove_first_success (c : LinearCollection α) (item : α)
    (h : (LinearCollection.remove_first ip c item).2 = true) :
    c.valid = true ∧ 0 < c.size ∧ ip.find_index c.data c.size item ≠ c.size ∧
      (LinearCollection.remove_first ip c item).1 =
        { c with
          data := ip.remove c.data c.size (ip.find_index c.data c.size item)
          size := c.size - 1 } := by
  rw [LinearCollection.remove_first] at h ⊢
  split at h
  · simp at h
  · next h1 =>
    obtain ⟨hval, hemp⟩ := bool_guard_false (by simpa using h1)
    rw [if_neg (by simpa using h1)]
    dsimp only at h ⊢
    split at h
    · simp at h
    · next h2 =>
      rw [if_neg h2]
      exact ⟨hval, is_empty_pos hemp, by simpa using h2, rfl⟩

theorem remove_all_invalid_or_empty (c : LinearCollection α) (item : α)
    (h : c.valid = false ∨ c.size = 0) :
    LinearCollection.remove_all ip c item = (c, false) := by
  have hcond : (!is_valid c || is_empty c) = true := by
    rcases h with h | h
    · simp [is_valid, h]
    · simp [is_empty, h]
  rw [LinearCollection.remove_all, if_pos hcond]

theorem remove_all_guarded (c : LinearCollection α) (item : α)
    (hval : c.valid = true) (hsize : 0 < c.size) :
    LinearCollection.remove_all ip c item =
      ({ c with
          data := (ip.remove_all c.data c.size item).1
          size := c.size - (ip.remove_all c.data c.size item).2 },
        decide ((ip.remove_all c.data c.size item).2 > 0)) := by
  have hcond : ¬ (!is_valid c || is_empty c) = true := by
    simp [is_valid, is_empty, hval]
    omega
  rw [LinearCollection.remove_all, if_neg hcond]

end EngineLemmas

/-! ## Policy lawfulness: lengths preserved, counts bounded -/

section PolicyLemmas

variable {α : Type} [Inhabited α]

theorem seqFindLoop_le (beq : α → α → Bool) (data : List α) (size : Nat)
    (item : α) (i : Nat) : seqFindLoop beq data size item i ≤ size := by
  refine seqFindLoop.induct beq data size item
    (fun i => seqFindLoop beq data size item i ≤ size) ?_ ?_ ?_ i
  · intro x hlt hbeq
    rw [seqFindLoop, if_pos hlt, if_pos hbeq]
    omega
  · intro x hlt hbeq ih
    rw [seqFindLoop, if_pos hlt, if_neg hbeq]
    exact ih
  · intro x hlt
    rw [seqFindLoop, if_neg hlt]

theorem seqFindLoop_eq_size_iff (beq : α → α → Bool) (data : List α) (size : Nat)
    (item : α) (i : Nat) :
    seqFindLoop beq data size item i = size ↔
      ∀ j, i ≤ j → j < size → beq (getE data j) item = false := by
  refine seqFindLoop.induct beq data size item
    (fun i => seqFindLoop beq data size item i = size ↔
      ∀ j, i ≤ j → j < size → beq (getE data j) item = false) ?_ ?_ ?_ i
  · intro x hlt hbeq
    rw [seqFindLoop, if_pos hlt, if_pos hbeq]
    constructor
    · intro heq
      omega
    · intro hall
      have := hall x (le_refl x) hlt
      rw [hbeq] at this
      exact absurd this (by simp)
  · intro x hlt hbeq ih
    rw [seqFindLoop, if_pos hlt, if_neg hbeq]
    rw [ih]
    constructor
    · intro hall j hij hj
      rcases Nat.eq_or_lt_of_le hij with rfl | hgt
      · exact Bool.eq_false_iff.mpr hbeq
      · exact hall j hgt hj
    · intro hall j hij hj
      exact hall j (by omega) hj
  · intro x hlt
    rw [seqFindLoop, if_neg hlt]
    exact iff_of_true rfl fun j hij hj => absurd (by omega : x < size) hlt

theorem length_seqCompactLoop (beq : α → α → Bool) (item : α) (size : Nat)
    (data : List α) (read write : Nat) :
    (seqCompactLoop beq item size data read write).1.length = data.length := by
  refine seqCompactLoop.induct beq item size
    (fun data read write =>
      (seqCompactLoop beq item size data read write).1.length = data.length)
    ?_ ?_ ?_ data read write
  · intro d r w hlt hbeq ih
    rw [seqCompactLoop, if_pos hlt, if_pos hbeq]
    rw [ih, List.length_set]
  · intro d r w hlt hbeq ih
    rw [seqCompactLoop, if_pos hlt, if_neg hbeq]
    exact ih
  · intro d r w hlt
    rw [seqCompactLoop, if_neg hlt]

/-- The side conditions the generic engine needs from an indexing policy:
the array mutators preserve the array length and `remove_all` never reports
more removals than there are live cells.  Both shipped policies satisfy
them. -/
structure LawfulIndexing {α : Type} [Inhabited α] (ip : IndexingPolicy α) : Prop where
  insert_length : ∀ data size index item,
    (ip.insert data size index item).length = data.length
  remove_length : ∀ data size index,
    (ip.remove data size index).length = data.length
  remove_all_length : ∀ data size item,
    (ip.remove_all data size item).1.length = data.length
  remove_all_count_le : ∀ data size item,
    (ip.remove_all data size item).2 ≤ size
  find_index_le : ∀ data size item, ip.find_index data size item ≤ size
  get_pop_index_eq : ∀ data size, ip.get_pop_index data size = size - 1

theorem ord_remove_all_length (lt beq : α → α → Bool) (data : List α)
    (size : Nat) (item : α) :
    (ord_remove_all lt beq data size item).1.length = data.length := by
  rw [ord_remove_all]
  split
  · rfl
  · exact length_removeAllShiftLoop data _ size _

theorem ord_remove_all_count_le (lt beq : α → α → Bool) (data : List α)
    (size : Nat) (item : α) :
    (ord_remove_all lt beq data size item).2 ≤ size := by
  rw [ord_remove_all]
  split
  · exact Nat.zero_le size
  · have h1 := find_index_le lt beq data size item
    have h2 := bsearchLoop_le (fun middle => !lt item (getE data middle))
      (ord_find_index lt beq data size item) size h1
    simp only
    omega

theorem lawful_ordered (lt beq : α → α → Bool) :
    LawfulIndexing (OrderedIndexingPolicy (α := α) lt beq) where
  insert_length := fun data size index item => length_bsp_insert data size index item
  remove_length := fun data size index => length_bsp_remove data size index
  remove_all_length := fun data size item => ord_remove_all_length lt beq data size item
  remove_all_count_le := fun data size item => ord_remove_all_count_le lt beq data size item
  find_index_le := fun data size item => find_index_le lt beq data size item
  get_pop_index_eq := fun _data _size => rfl

theorem lawful_sequential (beq : α → α → Bool) :
    LawfulIndexing (SequentialIndexingPolicy (α := α) beq) where
  insert_length := fun data size index item => length_bsp_insert data size index item
  remove_length := fun data size index => length_bsp_remove data size index
  remove_all_length := fun data size item =>
    length_seqCompactLoop beq item size data 0 0
  remove_all_count_le := fun data size item => Nat.sub_le size _
  find_index_le := fun data size item => seqFindLoop_le beq data size item 0
  get_pop_index_eq := fun _data _size => rfl

end PolicyLemmas

/-! ## Reachable states of the engine and the ring buffer -/

/-- Structural invariant of an engine state (spec section 3, Storage):
`size ≤ capacity`; a valid instance's backing array has exactly `capacity`
cells; a degraded instance has capacity 0. -/
def Sinv {α : Type} (c : LinearCollection α) : Prop :=
  c.size ≤ c.capacity ∧ (c.valid = true → c.data.length = c.capacity) ∧
    (c.valid = false → c.capacity = 0)

/-- One public mutating operation of `LinearCollection` (a facade call
forwarding into the engine). -/
inductive Step {α : Type} [Inhabited α] (ip : IndexingPolicy α)
    (dp : DuplicationPolicy α) : LinearCollection α → LinearCollection α → Prop where
  | push (c : LinearCollection α) (item : α) :
      Step ip dp c (LinearCollection.push ip dp c item).1
  | push_atomic (c : LinearCollection α) (item : α) :
      Step ip dp c (LinearCollection.push_atomic ip dp c item).1
  | pop (c : LinearCollection α) :
      Step ip dp c (LinearCollection.pop ip c).1
  | pop_atomic (c : LinearCollection α) :
      Step ip dp c (LinearCollection.pop_atomic ip c).1
  | insert_at (c : LinearCollection α) (item : α) (index : Nat) :
      Step ip dp c (LinearCollection.insert_at ip dp c item index).1
  | remove_at (c : LinearCollection α) (index : Nat) :
      Step ip dp c (LinearCollection.remove_at ip c index).1
  | remove_first (c : LinearCollection α) (item : α) :
      Step ip dp c (LinearCollection.remove_first ip c item).1
  | remove_all (c : LinearCollection α) (item : α) :
      Step ip dp c (LinearCollection.remove_all ip c item).1
  | clear (c : LinearCollection α) :
      Step ip dp c (LinearCollection.clear c)

/-- States reachable from construction with the requested `capacity` (and
allocation outcome `allocOk`) by any sequence of operations. -/
inductive Reach {α : Type} [Inhabited α] (ip : IndexingPolicy α)
    (dp : DuplicationPolicy α) (capacity : Nat) (allocOk : Bool) :
    LinearCollection α → Prop where
  | init : Reach ip dp capacity allocOk (mkLinearCollection α capacity allocOk)
  | step {c c' : LinearCollection α} : Reach ip dp capacity allocOk c →
      Step ip dp c c' → Reach ip dp capacity allocOk c'

section StepLemmas

variable {α : Type} [Inhabited α] {ip : IndexingPolicy α} {dp : DuplicationPolicy α}

theorem Sinv_mk (capacity : Nat) (allocOk : Bool) :
    Sinv (mkLinearCollection α capacity allocOk) := by
  rw [mkLinearCollection]
  split <;> simp [Sinv]

theorem Sinv_update {α : Type} {c : LinearCollection α} {d : List α} {s : Nat}
    (hc : Sinv c) (hd : d.length = c.data.length) (hs : s ≤ c.capacity) :
    Sinv { c with data := d, size := s } :=
  ⟨hs, fun hv => hd.trans (hc.2.1 hv), fun hv => hc.2.2 hv⟩

theorem Step_preserves (hip : LawfulIndexing ip) {c c' : LinearCollection α}
    (hs : Step ip dp c c') (hc : Sinv c) :
    Sinv c' ∧ c'.capacity = c.capacity ∧ c'.valid = c.valid := by
  have hsc := hc.1
  cases hs with
  | push item =>
    cases hb : (LinearCollection.push ip dp c item).2 with
    | false =>
      rw [push_false_unchanged c item hb]
      exact ⟨hc, rfl, rfl⟩
    | true =>
      obtain ⟨hval, hlt, _hallow, heq⟩ := push_success c item hb
      rw [heq]
      exact ⟨Sinv_update hc (hip.insert_length _ _ _ _) (by omega), rfl, rfl⟩
  | push_atomic item =>
    rw [LinearCollection.push_atomic]
    cases hb : (LinearCollection.push ip dp c item).2 with
    | false =>
      rw [push_false_unchanged c item hb]
      exact ⟨hc, rfl, rfl⟩
    | true =>
      obtain ⟨hval, hlt, _hallow, heq⟩ := push_success c item hb
      rw [heq]
      exact ⟨Sinv_update hc (hip.insert_length _ _ _ _) (by omega), rfl, rfl⟩
  | pop =>
    cases hb : (LinearCollection.pop ip c).2 with
    | none =>
      rw [pop_none_unchanged c hb]
      exact ⟨hc, rfl, rfl⟩
    | some v =>
      obtain ⟨hval, hpos, _hv, heq⟩ := pop_success c hb
      rw [heq]
      exact ⟨Sinv_update hc (hip.remove_length _ _ _) (by omega : c.size - 1 ≤ c.capacity), rfl, rfl⟩
  | pop_atomic =>
    rw [LinearCollection.pop_atomic]
    cases hb : (LinearCollection.pop ip c).2 with
    | none =>
      rw [pop_none_unchanged c hb]
      exact ⟨hc, rfl, rfl⟩
    | some v =>
      obtain ⟨hval, hpos, _hv, heq⟩ := pop_success c hb
      rw [heq]
      exact ⟨Sinv_update hc (hip.remove_length _ _ _) (by omega : c.size - 1 ≤ c.capacity), rfl, rfl⟩
  | insert_at item index =>
    cases hb : (LinearCollection.insert_at ip dp c item index).2 with
    | false =>
      rw [insert_at_false_unchanged c item index hb]
      exact ⟨hc, rfl, rfl⟩
    | true =>
      obtain ⟨hval, hlt, _hidx, heq⟩ := insert_at_success c item index hb
      rw [heq]
      exact ⟨Sinv_update hc (hip.insert_length _ _ _ _) (by omega), rfl, rfl⟩
  | remove_at index =>
    cases hb : (LinearCollection.remove_at ip c index).2 with
    | none =>
      rw [remove_at_none_unchanged c index hb]
      exact ⟨hc, rfl, rfl⟩
    | some v =>
      obtain ⟨hval, hpos, _hidx, _hv, heq⟩ := remove_at_success c index hb
      rw [heq]
      exact ⟨Sinv_update hc (hip.remove_length _ _ _) (by omega : c.size - 1 ≤ c.capacity), rfl, rfl⟩
  | remove_first item =>
    cases hb : (LinearCollection.remove_first ip c item).2 with
    | false =>
      rw [remove_first_false_unchanged c item hb]
      exact ⟨hc, rfl, rfl⟩
    | true =>
      obtain ⟨hval, hpos, _hfind, heq⟩ := remove_first_success c item hb
      rw [heq]
      exact ⟨Sinv_update hc (hip.remove_length _ _ _) (by omega : c.size - 1 ≤ c.capacity), rfl, rfl⟩
  | remove_all item =>
    by_cases hg : c.valid = true ∧ 0 < c.size
    · rw [remove_all_guarded c item hg.1 hg.2]
      have hle := hc.1
      exact ⟨Sinv_update hc (hip.remove_all_length _ _ _) (by omega), rfl, rfl⟩
    · have hcase : c.valid = false ∨ c.size = 0 := by
        rcases Bool.eq_false_or_eq_true c.valid with hv | hv
        · right
          by_contra hcon
          exact hg ⟨hv, by omega⟩
        · exact Or.inl hv
      rw [remove_all_invalid_or_empty c item hcase]
      exact ⟨hc, rfl, rfl⟩
  | clear =>
    exact ⟨⟨Nat.zero_le _, hc.2.1, hc.2.2⟩, rfl, rfl⟩


/-- Every reachable engine state satisfies the structural invariant, with
the capacity and validity fixed at construction. -/
theorem Reach_preserves (hip : LawfulIndexing ip) {capacity : Nat}
    {allocOk : Bool} {c : LinearCollection α}
    (h : Reach ip dp capacity allocOk c) :
    Sinv c ∧ c.capacity = (mkLinearCollection α capacity allocOk).capacity ∧
      c.valid = (mkLinearCollection α capacity allocOk).valid := by
  induction h with
  | init => exact ⟨Sinv_mk capacity allocOk, rfl, rfl⟩
  | step _hr hs ih =>
    obtain ⟨hinv, hcap, hval⟩ := ih
    obtain ⟨hinv', hcap', hval'⟩ := Step_preserves hip hs hinv
    exact ⟨hinv', hcap'.trans hcap, hval'.trans hval⟩

end StepLemmas

/-- Structural invariant of a ring-buffer state: `size ≤ capacity`; a valid
buffer has a positive capacity (the constructor nulls out capacity-0
buffers) and a full-length array; a degraded buffer has capacity 0. -/
def RBinv {α : Type} (b : FixedRingBuffer α) : Prop :=
  b.size ≤ b.capacity ∧
    (b.valid = true → b.data.length = b.capacity ∧ 0 < b.capacity) ∧
    (b.valid = false → b.capacity = 0)

/-- One public mutating operation of `FixedRingBuffer` (both push modes are
included; an instance only ever uses the one fixed by its mode
parameter). -/
inductive RBStep {α : Type} [Inhabited α] :
    FixedRingBuffer α → FixedRingBuffer α → Prop where
  | push (b : FixedRingBuffer α) (item : α) :
      RBStep b (FixedRingBuffer.push b item).1
  | push_atomic (b : FixedRingBuffer α) (item : α) :
      RBStep b (FixedRingBuffer.push_atomic b item).1
  | push_overwrite (b : FixedRingBuffer α) (item : α) :
      RBStep b (FixedRingBuffer.push_overwrite b item).1
  | pop (b : FixedRingBuffer α) :
      RBStep b (FixedRingBuffer.pop b).1
  | pop_atomic (b : FixedRingBuffer α) :
      RBStep b (FixedRingBuffer.pop_atomic b).1
  | clear (b : FixedRingBuffer α) :
      RBStep b (FixedRingBuffer.clear b)

/-- Ring-buffer states reachable from construction. -/
inductive RBReach {α : Type} [Inhabited α] (max_capacity : Nat) (allocOk : Bool) :
    FixedRingBuffer α → Prop where
  | init : RBReach max_capacity allocOk (mkFixedRingBuffer α max_capacity allocOk)
  | step {b b' : FixedRingBuffer α} : RBReach max_capacity allocOk b →
      RBStep b b' → RBReach max_capacity allocOk b'

section RBLemmas

variable {α : Type} [Inhabited α]

theorem RBinv_mk (max_capacity : Nat) (allocOk : Bool) :
    RBinv (mkFixedRingBuffer α max_capacity allocOk) := by
  rw [mkFixedRingBuffer]
  split
  · next hcond =>
    simp only [Bool.and_eq_true, decide_eq_true_iff] at hcond
    simp [RBinv, List.length_replicate]
    omega
  · simp [RBinv]

theorem rb_push_cases (b : FixedRingBuffer α) (item : α) :
    FixedRingBuffer.push b item = (b, false) ∨
      (b.valid = true ∧ b.size < b.capacity ∧
        FixedRingBuffer.push b item =
          ({ b with
              data := b.data.set b.tail item
              tail := FixedRingBuffer.next b b.tail
              size := b.size + 1 }, true)) := by
  rw [FixedRingBuffer.push]
  split
  · exact Or.inl rfl
  · next h1 =>
    obtain ⟨hval, hfull⟩ := bool_guard_false (by simpa using h1)
    refine Or.inr ⟨hval, ?_, rfl⟩
    simp only [FixedRingBuffer.is_full, decide_eq_false_iff_not, Nat.not_le] at hfull
    exact hfull

theorem rb_pop_cases (b : FixedRingBuffer α) :
    FixedRingBuffer.pop b = (b, none) ∨
      (b.valid = true ∧ 0 < b.size ∧
        FixedRingBuffer.pop b =
          ({ b with
              head := FixedRingBuffer.next b b.head
              size := b.size - 1 }, some (getE b.data b.head))) := by
  rw [FixedRingBuffer.pop]
  split
  · exact Or.inl rfl
  · next h1 =>
    obtain ⟨hval, hemp⟩ := bool_guard_false (by simpa using h1)
    refine Or.inr ⟨hval, ?_, rfl⟩
    simp only [FixedRingBuffer.is_empty, beq_eq_false_iff_ne, ne_eq] at hemp
    omega

theorem rb_push_overwrite_cases (b : FixedRingBuffer α) (item : α) :
    FixedRingBuffer.push_overwrite b item = (b, false) ∧ b.valid = false ∨
      (b.valid = true ∧
        FixedRingBuffer.push_overwrite b item =
          (let b1 := if FixedRingBuffer.is_full b then
              { b with head := FixedRingBuffer.next b b.head, size := b.size - 1 }
            else b
          ({ b1 with
              data := b1.data.set b1.tail item
              tail := FixedRingBuffer.next b1 b1.tail
              size := b1.size + 1 }, true))) := by
  rw [FixedRingBuffer.push_overwrite]
  split
  · next h1 =>
    simp only [Bool.not_eq_true', FixedRingBuffer.is_valid] at h1
    exact Or.inl ⟨rfl, h1⟩
  · next h1 =>
    simp only [Bool.not_eq_true', FixedRingBuffer.is_valid, Bool.not_eq_false] at h1
    exact Or.inr ⟨h1, rfl⟩

theorem RBinv_update {α : Type} {b : FixedRingBuffer α} {d : List α}
    {s hd tl : Nat} (hb : RBinv b) (hlen : d.length = b.data.length)
    (hs : s ≤ b.capacity) :
    RBinv { b with data := d, size := s, head := hd, tail := tl } :=
  ⟨hs, fun hv => ⟨hlen.trans (hb.2.1 hv).1, (hb.2.1 hv).2⟩, fun hv => hb.2.2 hv⟩

theorem RBStep_preserves {b b' : FixedRingBuffer α} (hs : RBStep b b')
    (hb : RBinv b) :
    RBinv b' ∧ b'.capacity = b.capacity ∧ b'.valid = b.valid := by
  have hsc := hb.1
  cases hs with
  | push item =>
    rcases rb_push_cases b item with heq | ⟨hv, hlt, heq⟩ <;> rw [heq]
    · exact ⟨hb, rfl, rfl⟩
    · exact ⟨RBinv_update hb (List.length_set b.data b.tail item) (by omega), rfl, rfl⟩
  | push_atomic item =>
    rw [FixedRingBuffer.push_atomic]
    rcases rb_push_cases b item with heq | ⟨hv, hlt, heq⟩ <;> rw [heq]
    · exact ⟨hb, rfl, rfl⟩
    · exact ⟨RBinv_update hb (List.length_set b.data b.tail item) (by omega), rfl, rfl⟩
  | push_overwrite item =>
    rcases rb_push_overwrite_cases b item with ⟨heq, _⟩ | ⟨hv, heq⟩ <;> rw [heq]
    · exact ⟨hb, rfl, rfl⟩
    · dsimp only
      split
      · next hfull =>
        have hcap : 0 < b.capacity := (hb.2.1 hv).2
        simp only [FixedRingBuffer.is_full, decide_eq_true_iff] at hfull
        refine ⟨?_, rfl, rfl⟩
        show RBinv { b with
          data := b.data.set b.tail item
          size := b.size - 1 + 1
          head := FixedRingBuffer.next b b.head
          tail := FixedRingBuffer.next b b.tail }
        exact RBinv_update hb (List.length_set b.data b.tail item) (by omega)
      · next hfull =>
        have hnfull : b.size < b.capacity := by
          by_contra hcon
          exact hfull (by simp [FixedRingBuffer.is_full]; omega)
        refine ⟨?_, rfl, rfl⟩
        show RBinv { b with
          data := b.data.set b.tail item
          size := b.size + 1
          head := b.head
          tail := FixedRingBuffer.next b b.tail }
        exact RBinv_update hb (List.length_set b.data b.tail item) (by omega)
  | pop =>
    rcases rb_pop_cases b with heq | ⟨hv, hpos, heq⟩ <;> rw [heq]
    · exact ⟨hb, rfl, rfl⟩
    · exact ⟨⟨(by omega : b.size - 1 ≤ b.capacity), hb.2.1, hb.2.2⟩, rfl, rfl⟩
  | pop_atomic =>
    rw [FixedRingBuffer.pop_atomic]
    rcases rb_pop_cases b with heq | ⟨hv, hpos, heq⟩ <;> rw [heq]
    · exact ⟨hb, rfl, rfl⟩
    · exact ⟨⟨(by omega : b.size - 1 ≤ b.capacity), hb.2.1, hb.2.2⟩, rfl, rfl⟩
  | clear =>
    exact ⟨⟨Nat.zero_le _, hb.2.1, hb.2.2⟩, rfl, rfl⟩


/-- Every reachable ring-buffer state satisfies the structural invariant,
with capacity and validity fixed at construction. -/
theorem RBReach_preserves {max_capacity : Nat} {allocOk : Bool}
    {b : FixedRingBuffer α} (h : RBReach max_capacity allocOk b) :
    RBinv b ∧ b.capacity = (mkFixedRingBuffer α max_capacity allocOk).capacity ∧
      b.valid = (mkFixedRingBuffer α max_capacity allocOk).valid := by
  induction h with
  | init => exact ⟨RBinv_mk max_capacity allocOk, rfl, rfl⟩
  | step _hr hs ih =>
    obtain ⟨hinv, hcap, hval⟩ := ih
    obtain ⟨hinv', hcap', hval'⟩ := RBStep_preserves hs hinv
    exact ⟨hinv', hcap'.trans hcap, hval'.trans hval⟩

end RBLemmas

/-! ## Sorted-prefix invariant of the ordered facades -/

/-- The live elements are sorted under the configured comparator. -/
def SortedLive {α : Type} (lt : α → α → Bool) (c : LinearCollection α) : Prop :=
  sortedB lt (c.data.take c.size)

/-- One mutating operation exposed by an Ordered facade
(`FixedOrderedVector`, `FixedOrderedSet`, `FixedMap`): insertion goes
through the ordered engine `push`; removals through `pop`, `remove_at`
(used by the map), `remove_first`, `remove_all` and `clear`.  Positional
`insert_at` is not exposed by any ordered facade. -/
inductive OrderedStep {α : Type} [Inhabited α] (lt beq : α → α → Bool)
    (dp : DuplicationPolicy α) : LinearCollection α → LinearCollection α → Prop where
  | push (c : LinearCollection α) (item : α) :
      OrderedStep lt beq dp c
        (LinearCollection.push (OrderedIndexingPolicy lt beq) dp c item).1
  | push_atomic (c : LinearCollection α) (item : α) :
      OrderedStep lt beq dp c
        (LinearCollection.push_atomic (OrderedIndexingPolicy lt beq) dp c item).1
  | pop (c : LinearCollection α) :
      OrderedStep lt beq dp c
        (LinearCollection.pop (OrderedIndexingPolicy lt beq) c).1
  | pop_atomic (c : LinearCollection α) :
      OrderedStep lt beq dp c
        (LinearCollection.pop_atomic (OrderedIndexingPolicy lt beq) c).1
  | remove_at (c : LinearCollection α) (index : Nat) :
      OrderedStep lt beq dp c
        (LinearCollection.remove_at (OrderedIndexingPolicy lt beq) c index).1
  | remove_first (c : LinearCollection α) (item : α) :
      OrderedStep lt beq dp c
        (LinearCollection.remove_first (OrderedIndexingPolicy lt beq) c item).1
  | remove_all (c : LinearCollection α) (item : α) :
      OrderedStep lt beq dp c
        (LinearCollection.remove_all (OrderedIndexingPolicy lt beq) c item).1
  | clear (c : LinearCollection α) :
      OrderedStep lt beq dp c (LinearCollection.clear c)

/-- States of an Ordered facade reachable from construction. -/
inductive OrderedReach {α : Type} [Inhabited α] (lt beq : α → α → Bool)
    (dp : DuplicationPolicy α) (capacity : Nat) (allocOk : Bool) :
    LinearCollection α → Prop where
  | init : OrderedReach lt beq dp capacity allocOk
      (mkLinearCollection α capacity allocOk)
  | step {c c' : LinearCollection α} : OrderedReach lt beq dp capacity allocOk c →
      OrderedStep lt beq dp c c' → OrderedReach lt beq dp capacity allocOk c'

section OrderedInvariant

variable {α : Type} [Inhabited α] {lt beq : α → α → Bool} {dp : DuplicationPolicy α}

/-- Both branches of `push` place an ordered insertion at the lower bound:
the fused `find_insert_position` reuses `get_push_index`. -/
theorem pushIndex_ordered (c : LinearCollection α) (item : α) :
    pushIndex (OrderedIndexingPolicy lt beq) dp c item =
      ord_get_push_index lt c.data c.size item := by
  rw [pushIndex]
  split <;> rfl

/-- Effect of `BaseShiftIndexingPolicy::remove` on the live prefix: the new
live prefix is the old one with the cell at `t` erased. -/
theorem bsp_remove_live (data : List α) (size t : Nat) (h1 : t < size)
    (h2 : size ≤ data.length) :
    (bsp_remove data size t).take (size - 1) = (data.take size).eraseIdx t := by
  rw [bsp_remove, shiftLeftLoop_spec data (size - 1) t (by omega) (by omega),
    List.eraseIdx_eq_take_drop_succ]
  have l1 : (data.take t).length = t := by
    simp only [List.length_take]
    omega
  have l2 : ((data.drop (t + 1)).take (size - 1 - t)).length = size - 1 - t := by
    simp only [List.length_take, List.length_drop]
    omega
  rw [List.take_append_eq_append_take, List.take_append_eq_append_take]
  have e1 : (data.take t).take (size - 1) = data.take t := by
    rw [List.take_take]
    congr 1
    omega
  have e2 : ((data.drop (t + 1)).take (size - 1 - t)).take (size - 1 - (data.take t).length) =
      (data.drop (t + 1)).take (size - 1 - t) := by
    apply List.take_of_length_le
    rw [l2, l1]
  have e3 : size - 1 -
      (data.take t ++ (data.drop (t + 1)).take (size - 1 - t)).length = 0 := by
    rw [List.length_append, l1, l2]
    omega
  rw [e1, e2, e3, List.take_zero, List.append_nil]
  congr 1
  · rw [List.take_take]
    congr 1
    omega
  · rw [List.drop_take]
    congr 1
    omega

/-- Every Ordered-facade operation preserves the structural invariant and
the sortedness of the live prefix. -/
theorem OrderedStep_preserves (h : IsStrictWeakOrder lt beq)
    {c c' : LinearCollection α} (hs : OrderedStep lt beq dp c c')
    (hc : Sinv c ∧ SortedLive lt c) :
    Sinv c' ∧ SortedLive lt c' := by
  obtain ⟨hinv, hsort⟩ := hc
  have hip : LawfulIndexing (OrderedIndexingPolicy (α := α) lt beq) :=
    lawful_ordered lt beq
  have hpush : ∀ item,
      Sinv (LinearCollection.push (OrderedIndexingPolicy lt beq) dp c item).1 ∧
      SortedLive lt (LinearCollection.push (OrderedIndexingPolicy lt beq) dp c item).1 := by
    intro item
    cases hb : (LinearCollection.push (OrderedIndexingPolicy lt beq) dp c item).2 with
    | false =>
      rw [push_false_unchanged c item hb]
      exact ⟨hinv, hsort⟩
    | true =>
      obtain ⟨hval, hlt, _hallow, heq⟩ := push_success c item hb
      rw [heq]
      have hlen : c.data.length = c.capacity := hinv.2.1 hval
      constructor
      · exact Sinv_update hinv (hip.insert_length _ _ _ _) (by omega)
      · show sortedB lt ((bsp_insert c.data c.size
          (pushIndex (OrderedIndexingPolicy lt beq) dp c item) item).take (c.size + 1))
        rw [pushIndex_ordered c item,
          bsp_insert_live c.data c.size (ord_get_push_index lt c.data c.size item)
            item (get_push_index_le lt c.data c.size item) (by omega)]
        exact sorted_insert_lower h c.data c.size item hsort (by omega)
  have hremove : ∀ index, index < c.size → c.valid = true →
      SortedLive lt { c with
        data := bsp_remove c.data c.size index
        size := c.size - 1 } := by
    intro index hidx hval
    have hlen : c.data.length = c.capacity := hinv.2.1 hval
    have hsc := hinv.1
    show sortedB lt ((bsp_remove c.data c.size index).take (c.size - 1))
    rw [bsp_remove_live c.data c.size index hidx (by omega)]
    exact sortedB_sublist (List.eraseIdx_sublist _ index) hsort
  cases hs with
  | push item => exact hpush item
  | push_atomic item =>
    rw [LinearCollection.push_atomic]
    exact hpush item
  | pop =>
    cases hb : (LinearCollection.pop (OrderedIndexingPolicy lt beq) c).2 with
    | none =>
      rw [pop_none_unchanged c hb]
      exact ⟨hinv, hsort⟩
    | some v =>
      obtain ⟨hval, hpos, _hv, heq⟩ := pop_success c hb
      rw [heq]
      exact ⟨Sinv_update hinv (hip.remove_length _ _ _)
          (by have := hinv.1; omega : c.size - 1 ≤ c.capacity),
        hremove (c.size - 1) (by omega) hval⟩
  | pop_atomic =>
    rw [LinearCollection.pop_atomic]
    cases hb : (LinearCollection.pop (OrderedIndexingPolicy lt beq) c).2 with
    | none =>
      rw [pop_none_unchanged c hb]
      exact ⟨hinv, hsort⟩
    | some v =>
      obtain ⟨hval, hpos, _hv, heq⟩ := pop_success c hb
      rw [heq]
      exact ⟨Sinv_update hinv (hip.remove_length _ _ _)
          (by have := hinv.1; omega : c.size - 1 ≤ c.capacity),
        hremove (c.size - 1) (by omega) hval⟩
  | remove_at index =>
    cases hb : (LinearCollection.remove_at (OrderedIndexingPolicy lt beq) c index).2 with
    | none =>
      rw [remove_at_none_unchanged c index hb]
      exact ⟨hinv, hsort⟩
    | some v =>
      obtain ⟨hval, hpos, hidx, _hv, heq⟩ := remove_at_success c index hb
      rw [heq]
      exact ⟨Sinv_update hinv (hip.remove_length _ _ _)
          (by have := hinv.1; omega : c.size - 1 ≤ c.capacity),
        hremove index hidx hval⟩
  | remove_first item =>
    cases hb : (LinearCollection.remove_first (OrderedIndexingPolicy lt beq) c item).2 with
    | false =>
      rw [remove_first_false_unchanged c item hb]
      exact ⟨hinv, hsort⟩
    | true =>
      obtain ⟨hval, hpos, hfind, heq⟩ := remove_first_success c item hb
      rw [heq]
      have hfle := hip.find_index_le c.data c.size item
      exact ⟨Sinv_update hinv (hip.remove_length _ _ _)
          (by have := hinv.1; omega : c.size - 1 ≤ c.capacity),
        hremove _ (by omega) hval⟩
  | remove_all item =>
    by_cases hg : c.valid = true ∧ 0 < c.size
    · rw [remove_all_guarded c item hg.1 hg.2]
      have hlen : c.data.length = c.capacity := hinv.2.1 hg.1
      have hspec := ord_remove_all_spec h c.data c.size item hsort
        (by have := hinv.1; omega)
      constructor
      · exact Sinv_update hinv (hip.remove_all_length _ _ _)
          (by have := hinv.1; omega)
      · show sortedB lt
          (((OrderedIndexingPolicy lt beq).remove_all c.data c.size item).1.take
            (c.size - ((OrderedIndexingPolicy lt beq).remove_all c.data c.size item).2))
        have heq : ((OrderedIndexingPolicy lt beq).remove_all c.data c.size item) =
            ord_remove_all lt beq c.data c.size item := rfl
        rw [heq, hspec.2.2.2.1]
        exact sortedB_sublist (List.filter_sublist _) hsort
    · have hcase : c.valid = false ∨ c.size = 0 := by
        rcases Bool.eq_false_or_eq_true c.valid with hv | hv
        · right
          by_contra hcon
          exact hg ⟨hv, by omega⟩
        · exact Or.inl hv
      rw [remove_all_invalid_or_empty c item hcase]
      exact ⟨hinv, hsort⟩
  | clear =>
    exact ⟨⟨Nat.zero_le _, hinv.2.1, hinv.2.2⟩, by
      show sortedB lt (c.data.take 0)
      simp [sortedB]⟩

/-- Every reachable state of an Ordered facade has a sorted live prefix. -/
theorem OrderedReach_sorted (h : IsStrictWeakOrder lt beq) {capacity : Nat}
    {allocOk : Bool} {c : LinearCollection α}
    (hr : OrderedReach lt beq dp capacity allocOk c) :
    Sinv c ∧ SortedLive lt c := by
  induction hr with
  | init =>
    refine ⟨Sinv_mk capacity allocOk, ?_⟩
    show sortedB lt _
    rw [mkLinearCollection]
    split <;> simp [sortedB]
  | step _hr hs ih => exact OrderedStep_preserves h hs ih

end OrderedInvariant

/-! ## Remaining helper lemmas for the claims -/

section ClaimHelpers

variable {α : Type} [Inhabited α] {ip : IndexingPolicy α} {dp : DuplicationPolicy α}

theorem mk_capacity (capacity : Nat) (allocOk : Bool) :
    (mkLinearCollection α capacity allocOk).capacity =
      if capacity > 0 && allocOk then capacity else 0 := by
  rw [mkLinearCollection]
  split <;> rfl

theorem rb_mk_capacity (max_capacity : Nat) (allocOk : Bool) :
    (mkFixedRingBuffer α max_capacity allocOk).capacity =
      if max_capacity > 0 && allocOk then max_capacity else 0 := by
  rw [mkFixedRingBuffer]
  split <;> rfl

theorem mk_degraded (capacity : Nat) (allocOk : Bool)
    (h : capacity = 0 ∨ allocOk = false) :
    mkLinearCollection α capacity allocOk =
      { valid := false, capacity := 0, size := 0, data := [] } := by
  rw [mkLinearCollection, if_neg]
  rcases h with h | h <;> simp [h]

theorem clear_size_zero {c : LinearCollection α} (h : c.size = 0) :
    LinearCollection.clear c = c := by
  cases c
  simp_all [LinearCollection.clear]

/-- A rejected `push` (duplication check failed) leaves the state unchanged
and reports false, whatever the guards said. -/
theorem push_rejected (c : LinearCollection α) (item : α)
    (hallow : pushAllowed ip dp c item = false) :
    LinearCollection.push ip dp c item = (c, false) := by
  rw [push_eq_ite]
  by_cases hg : (!LinearCollection.is_valid c || LinearCollection.is_full c) = true
  · rw [if_pos hg]
  · rw [if_neg hg, if_pos hallow]

theorem pushAllowed_seq_forbid (beq : α → α → Bool) (c : LinearCollection α)
    (item : α) :
    pushAllowed (SequentialIndexingPolicy beq) (ForbidDuplicationPolicy beq) c item =
      (seq_find_index beq c.data c.size item == c.size) := by
  rw [pushAllowed, if_neg]
  · rfl
  · simp [SequentialIndexingPolicy]

theorem pushAllowed_ord_forbid (lt beq : α → α → Bool) (c : LinearCollection α)
    (item : α) :
    pushAllowed (OrderedIndexingPolicy lt beq) (ForbidDuplicationPolicy beq) c item =
      !(ord_find_insert_position lt beq c.data c.size item).found := by
  rw [pushAllowed, if_pos]
  · rfl
  · simp [OrderedIndexingPolicy, ForbidDuplicationPolicy]

theorem set_getE_self (l : List α) (n : Nat) : l.set n (getE l n) = l := by
  by_cases h : n < l.length
  · rw [getE_eq_getElem l n h]
    apply List.ext_getElem
    · simp
    · intro i h1 h2
      rw [List.getElem_set]
      split
      · next he =>
        subst he
        rfl
      · rfl
  · exact List.set_eq_of_length_le (by omega)

theorem removeAllShiftLoop_zero_count (data : List α) (size ci : Nat) :
    removeAllShiftLoop data 0 size ci = data := by
  refine removeAllShiftLoop.induct (fun data count size ci =>
    count = 0 → removeAllShiftLoop data count size ci = data) ?_ ?_ data 0 size ci rfl
  · intro d cnt sz cj hlt ih hcnt
    subst hcnt
    rw [removeAllShiftLoop, if_pos hlt]
    rw [Nat.sub_zero, set_getE_self] at ih ⊢
    exact ih rfl
  · intro d cnt sz cj hlt _hcnt
    rw [removeAllShiftLoop, if_neg hlt]

theorem seqCompactLoop_snd_le (beq : α → α → Bool) (item : α) (size : Nat)
    (data : List α) (read write : Nat) :
    (seqCompactLoop beq item size data read write).2 ≤ write + (size - read) := by
  refine seqCompactLoop.induct beq item size (fun data read write =>
    (seqCompactLoop beq item size data read write).2 ≤ write + (size - read))
    ?_ ?_ ?_ data read write
  · intro d r w hlt hbeq ih
    rw [seqCompactLoop, if_pos hlt, if_pos hbeq]
    omega
  · intro d r w hlt hbeq ih
    rw [seqCompactLoop, if_pos hlt, if_neg hbeq]
    omega
  · intro d r w hlt
    rw [seqCompactLoop, if_neg hlt]
    omega

/-- When the compaction keeps every scanned cell, the array is rewritten in
place and comes out unchanged. -/
theorem seqCompactLoop_all_kept (beq : α → α → Bool) (item : α) (size : Nat)
    (data : List α) (read : Nat) :
    (seqCompactLoop beq item size data read read).2 = read + (size - read) →
    (seqCompactLoop beq item size data read read).1 = data := by
  refine seqCompactLoop.induct beq item size (fun data read write =>
    write = read →
      (seqCompactLoop beq item size data read write).2 = write + (size - read) →
      (seqCompactLoop beq item size data read write).1 = data)
    ?_ ?_ ?_ data read read rfl
  · intro d r w hlt hbeq ih hwr hsnd
    subst hwr
    rw [seqCompactLoop, if_pos hlt, if_pos hbeq] at hsnd ⊢
    rw [set_getE_self] at ih hsnd ⊢
    refine ih rfl ?_
    rw [hsnd]
    omega
  · intro d r w hlt hbeq ih hwr hsnd
    subst hwr
    rw [seqCompactLoop, if_pos hlt, if_neg hbeq] at hsnd
    have hle := seqCompactLoop_snd_le beq item size d (w + 1) w
    omega
  · intro d r w hlt _hwr _hsnd
    rw [seqCompactLoop, if_neg hlt]

end ClaimHelpers

section MoreHelpers

variable {α : Type} [Inhabited α] {ip : IndexingPolicy α} {dp : DuplicationPolicy α}

/-- `Ascending<int>` with `operator==` is a strict weak order. -/
theorem intAscSWO : IsStrictWeakOrder ascendingInt beqInt := by
  constructor
  · intro a
    simp [ascendingInt]
  · intro a b c hab hbc
    simp only [ascendingInt, decide_eq_true_iff] at hab hbc ⊢
    omega
  · intro a b
    simp only [beqInt, ascendingInt, beq_iff_eq, decide_eq_false_iff_not]
    omega
  · intro a b c hab hbc
    simp only [beqInt, beq_iff_eq] at hab hbc ⊢
    omega

/-- `Descending<int>` with `operator==` is a strict weak order. -/
theorem intDescSWO : IsStrictWeakOrder descendingInt beqInt := by
  constructor
  · intro a
    simp [descendingInt]
  · intro a b c hab hbc
    simp only [descendingInt, decide_eq_true_iff] at hab hbc ⊢
    omega
  · intro a b
    simp only [beqInt, descendingInt, beq_iff_eq, decide_eq_false_iff_not]
    omega
  · intro a b c hab hbc
    simp only [beqInt, beq_iff_eq] at hab hbc ⊢
    omega

theorem ord_remove_all_zero (lt beq : α → α → Bool) (data : List α) (size : Nat)
    (item : α) (h : (ord_remove_all lt beq data size item).2 = 0) :
    (ord_remove_all lt beq data size item).1 = data := by
  rw [ord_remove_all] at h ⊢
  split at h
  · next hcond =>
    rw [if_pos hcond]
  · next hcond =>
    rw [if_neg hcond]
    dsimp only at h ⊢
    rw [h]
    exact removeAllShiftLoop_zero_count data size _

theorem seq_remove_all_zero (beq : α → α → Bool) (data : List α) (size : Nat)
    (item : α) (h : (seq_remove_all beq data size item).2 = 0) :
    (seq_remove_all beq data size item).1 = data := by
  rw [seq_remove_all] at h ⊢
  dsimp only at h ⊢
  have hle := seqCompactLoop_snd_le beq item size data 0 0
  exact seqCompactLoop_all_kept beq item size data 0 (by omega)

/-- A failing `remove_all` (no occurrence removed) leaves the state
unchanged, provided the policy's zero-count runs touch nothing — true of
both shipped policies. -/
theorem remove_all_false_unchanged
    (hzero : ∀ data size item, (ip.remove_all data size item).2 = 0 →
      (ip.remove_all data size item).1 = data)
    (c : LinearCollection α) (item : α)
    (h : (LinearCollection.remove_all ip c item).2 = false) :
    (LinearCollection.remove_all ip c item).1 = c := by
  by_cases hg : c.valid = true ∧ 0 < c.size
  · rw [remove_all_guarded c item hg.1 hg.2] at h ⊢
    have hcnt : (ip.remove_all c.data c.size item).2 = 0 := by simpa using h
    show ({ c with
      data := (ip.remove_all c.data c.size item).1
      size := c.size - (ip.remove_all c.data c.size item).2 }) = c
    rw [hzero _ _ _ hcnt, hcnt]
    cases c
    simp
  · have hcase : c.valid = false ∨ c.size = 0 := by
      rcases Bool.eq_false_or_eq_true c.valid with hv | hv
      · right
        by_contra hcon
        exact hg ⟨hv, by omega⟩
      · exact Or.inl hv
    rw [remove_all_invalid_or_empty c item hcase]

end MoreHelpers

/-! ## The claims -/

/-- C6: for every collection type (the generic engine under any lawful
indexing policy, and the ring buffer) and every sequence of operations
after construction, `size() ≤ capacity()` holds in every reachable state,
and `capacity()` never changes after construction: it stays the requested
capacity, or 0 for a degraded instance. -/
theorem C6_size_le_capacity_invariant {α β : Type} [Inhabited α] [Inhabited β]
    {ip : IndexingPolicy α} {dp : DuplicationPolicy α} {cap : Nat} {ok : Bool}
    {c : LinearCollection α} (hip : LawfulIndexing ip)
    (hc : Reach ip dp cap ok c)
    {bcap : Nat} {bok : Bool} {b : FixedRingBuffer β} (hb : RBReach bcap bok b) :
    (c.size ≤ c.capacity ∧ c.capacity = if cap > 0 && ok then cap else 0) ∧
    (b.size ≤ b.capacity ∧
      b.capacity = if bcap > 0 && bok then bcap else 0) := by
  obtain ⟨hinv, hcap, _⟩ := Reach_preserves hip hc
  obtain ⟨hbinv, hbcap, _⟩ := RBReach_preserves hb
  exact ⟨⟨hinv.1, hcap.trans (mk_capacity cap ok)⟩,
    ⟨hbinv.1, hbcap.trans (rb_mk_capacity bcap bok)⟩⟩

/-- Witness for C6: a vector that pushed 7 into a fresh capacity-2
collection and a ring buffer that pushed 9 into a fresh capacity-2
buffer. -/
theorem C6_witness :
    ((LinearCollection.push (SequentialIndexingPolicy beqInt)
          AllowDuplicationPolicy (mkLinearCollection Int 2 true) 7).1.size ≤
        (LinearCollection.push (SequentialIndexingPolicy beqInt)
          AllowDuplicationPolicy (mkLinearCollection Int 2 true) 7).1.capacity ∧
      (LinearCollection.push (SequentialIndexingPolicy beqInt)
          AllowDuplicationPolicy (mkLinearCollection Int 2 true) 7).1.capacity =
        if 2 > 0 && true then 2 else 0) ∧
    ((FixedRingBuffer.push (mkFixedRingBuffer Int 2 true) 9).1.size ≤
        (FixedRingBuffer.push (mkFixedRingBuffer Int 2 true) 9).1.capacity ∧
      (FixedRingBuffer.push (mkFixedRingBuffer Int 2 true) 9).1.capacity =
        if 2 > 0 && true then 2 else 0) :=
  C6_size_le_capacity_invariant (lawful_sequential beqInt)
    (Reach.step Reach.init (Step.push _ 7))
    (RBReach.step RBReach.init (RBStep.push _ 9))

/-- C7: a collection constructed with capacity 0 or with a failed
allocation is permanently degraded: capacity 0, invalid, size 0; every
state reachable from it is the degraded state itself, and every mutating
operation (including the atomic variants) on an invalid collection returns
false (or no value) and changes nothing. -/
theorem C7_degraded_permanent {α : Type} [Inhabited α] (ip : IndexingPolicy α)
    (dp : DuplicationPolicy α) (cap : Nat) (ok : Bool)
    (hdeg : cap = 0 ∨ ok = false) :
    (mkLinearCollection α cap ok).capacity = 0 ∧
    (mkLinearCollection α cap ok).valid = false ∧
    (mkLinearCollection α cap ok).size = 0 ∧
    (∀ c : LinearCollection α, Reach ip dp cap ok c →
      c = mkLinearCollection α cap ok) ∧
    (∀ c : LinearCollection α, c.valid = false →
      (∀ item, LinearCollection.push ip dp c item = (c, false)) ∧
      (∀ item, LinearCollection.push_atomic ip dp c item = (c, false)) ∧
      LinearCollection.pop ip c = (c, none) ∧
      LinearCollection.pop_atomic ip c = (c, none) ∧
      (∀ item index, LinearCollection.insert_at ip dp c item index = (c, false)) ∧
      (∀ index, LinearCollection.remove_at ip c index = (c, none)) ∧
      (∀ item, LinearCollection.remove_first ip c item = (c, false)) ∧
      (∀ item, LinearCollection.remove_all ip c item = (c, false))) := by
  have hops : ∀ c : LinearCollection α, c.valid = false →
      (∀ item, LinearCollection.push ip dp c item = (c, false)) ∧
      (∀ item, LinearCollection.push_atomic ip dp c item = (c, false)) ∧
      LinearCollection.pop ip c = (c, none) ∧
      LinearCollection.pop_atomic ip c = (c, none) ∧
      (∀ item index, LinearCollection.insert_at ip dp c item index = (c, false)) ∧
      (∀ index, LinearCollection.remove_at ip c index = (c, none)) ∧
      (∀ item, LinearCollection.remove_first ip c item = (c, false)) ∧
      (∀ item, LinearCollection.remove_all ip c item = (c, false)) := by
    intro c hval
    refine ⟨fun item => push_invalid c item hval,
      fun item => push_invalid c item hval,
      pop_invalid_or_empty c (Or.inl hval),
      pop_invalid_or_empty c (Or.inl hval),
      fun item index => insert_at_fail c item index (Or.inl hval),
      fun index => remove_at_fail c index (Or.inl hval),
      fun item => remove_first_invalid_or_empty c item (Or.inl hval),
      fun item => remove_all_invalid_or_empty c item (Or.inl hval)⟩
  rw [mk_degraded cap ok hdeg]
  refine ⟨rfl, rfl, rfl, ?_, hops⟩
  intro c hr
  rw [← mk_degraded cap ok hdeg]
  induction hr with
  | init => rfl
  | step _hr hs ih =>
    subst ih
    set c0 := mkLinearCollection α cap ok with hc0
    have hval : c0.valid = false := by
      rw [hc0, mk_degraded cap ok hdeg]
    obtain ⟨hpush, hpusha, hpop, hpopa, hins, hrem, hremf, hrema⟩ := hops c0 hval
    cases hs with
    | push item => rw [hpush item]
    | push_atomic item => rw [LinearCollection.push_atomic, hpush item]
    | pop => rw [hpop]
    | pop_atomic => rw [LinearCollection.pop_atomic, hpop]
    | insert_at item index => rw [hins item index]
    | remove_at index => rw [hrem index]
    | remove_first item => rw [hremf item]
    | remove_all item => rw [hrema item]
    | clear =>
      apply clear_size_zero
      rw [hc0, mk_degraded cap ok hdeg]

/-- Witness for C7: a capacity-0 sequential collection over `Int`. -/
theorem C7_witness :
    (mkLinearCollection Int 0 true).capacity = 0 ∧
    (mkLinearCollection Int 0 true).valid = false ∧
    (mkLinearCollection Int 0 true).size = 0 ∧
    (∀ c : LinearCollection Int,
      Reach (SequentialIndexingPolicy beqInt) AllowDuplicationPolicy 0 true c →
      c = mkLinearCollection Int 0 true) ∧
    (∀ c : LinearCollection Int, c.valid = false →
      (∀ item, LinearCollection.push (SequentialIndexingPolicy beqInt)
        AllowDuplicationPolicy c item = (c, false)) ∧
      (∀ item, LinearCollection.push_atomic (SequentialIndexingPolicy beqInt)
        AllowDuplicationPolicy c item = (c, false)) ∧
      LinearCollection.pop (SequentialIndexingPolicy beqInt) c = (c, none) ∧
      LinearCollection.pop_atomic (SequentialIndexingPolicy beqInt) c = (c, none) ∧
      (∀ item index, LinearCollection.insert_at (SequentialIndexingPolicy beqInt)
        AllowDuplicationPolicy c item index = (c, false)) ∧
      (∀ index, LinearCollection.remove_at (SequentialIndexingPolicy beqInt)
        c index = (c, none)) ∧
      (∀ item, LinearCollection.remove_first (SequentialIndexingPolicy beqInt)
        c item = (c, false)) ∧
      (∀ item, LinearCollection.remove_all (SequentialIndexingPolicy beqInt)
        c item = (c, false))) :=
  C7_degraded_permanent (SequentialIndexingPolicy beqInt) AllowDuplicationPolicy
    0 true (Or.inl rfl)

theorem bool_guard_true {a b : Bool} : (!a || b) = true ↔ a = false ∨ b = true := by
  cases a <;> cases b <;> simp

/-- C5: the reject-mode circular buffer.  `push` fails exactly when the
buffer is invalid or full and otherwise writes at `tail`, advances `tail`
modulo capacity and increments `size`; `pop` fails exactly when the buffer
is invalid or empty and otherwise hands out the element at `head`, advances
`head` modulo capacity and decrements `size`; logical index `i` reads
physical index `(head + i) % capacity`; and the concrete FIFO scenario:
pushing 10, 20, 30 into a fresh capacity-4 buffer then popping twice yields
10 then 20, leaving just 30. -/
theorem C5_ring_reject_fifo {α : Type} [Inhabited α] :
    (∀ (b : FixedRingBuffer α) (x : α),
      ((FixedRingBuffer.push b x).2 = false ↔
        b.valid = false ∨ b.capacity ≤ b.size)) ∧
    (∀ (b : FixedRingBuffer α) (x : α), (FixedRingBuffer.push b x).2 = true →
      FixedRingBuffer.push b x =
        ({ b with
            data := b.data.set b.tail x
            tail := (b.tail + 1) % b.capacity
            size := b.size + 1 }, true)) ∧
    (∀ b : FixedRingBuffer α,
      ((FixedRingBuffer.pop b).2 = none ↔ b.valid = false ∨ b.size = 0)) ∧
    (∀ b : FixedRingBuffer α, (FixedRingBuffer.pop b).2 ≠ none →
      FixedRingBuffer.pop b =
        ({ b with
            head := (b.head + 1) % b.capacity
            size := b.size - 1 }, some (getE b.data b.head))) ∧
    (∀ (b : FixedRingBuffer α) (i : Nat),
      FixedRingBuffer.atIndex b i = getE b.data ((b.head + i) % b.capacity)) ∧
    ((FixedRingBuffer.pop
        (FixedRingBuffer.push (FixedRingBuffer.push (FixedRingBuffer.push
          (mkFixedRingBuffer Int 4 true) 10).1 20).1 30).1).2 = some 10 ∧
      (FixedRingBuffer.pop (FixedRingBuffer.pop
        (FixedRingBuffer.push (FixedRingBuffer.push (FixedRingBuffer.push
          (mkFixedRingBuffer Int 4 true) 10).1 20).1 30).1).1).2 = some 20 ∧
      FixedRingBuffer.logicalList (FixedRingBuffer.pop (FixedRingBuffer.pop
        (FixedRingBuffer.push (FixedRingBuffer.push (FixedRingBuffer.push
          (mkFixedRingBuffer Int 4 true) 10).1 20).1 30).1).1).1 = [30] ∧
      (FixedRingBuffer.pop (FixedRingBuffer.pop
        (FixedRingBuffer.push (FixedRingBuffer.push (FixedRingBuffer.push
          (mkFixedRingBuffer Int 4 true) 10).1 20).1 30).1).1).1.size = 1) := by
  refine ⟨?_, ?_, ?_, ?_, fun b i => rfl, by decide⟩
  · intro b x
    rw [FixedRingBuffer.push]
    split
    · next hg =>
      rw [bool_guard_true] at hg
      simp only [FixedRingBuffer.is_valid, FixedRingBuffer.is_full,
        decide_eq_true_iff] at hg
      simpa using hg
    · next hg =>
      obtain ⟨hv, hf⟩ := bool_guard_false (by simpa using hg)
      simp only [FixedRingBuffer.is_valid] at hv
      simp only [FixedRingBuffer.is_full, decide_eq_false_iff_not, Nat.not_le] at hf
      constructor
      · intro hcon
        simp at hcon
      · intro hcon
        rcases hcon with hcon | hcon
        · rw [hv] at hcon
          cases hcon
        · omega
  · intro b x hb
    rcases rb_push_cases b x with heq | ⟨_, _, heq⟩
    · rw [heq] at hb
      simp at hb
    · exact heq
  · intro b
    rw [FixedRingBuffer.pop]
    split
    · next hg =>
      rw [bool_guard_true] at hg
      simp only [FixedRingBuffer.is_valid, FixedRingBuffer.is_empty,
        beq_iff_eq] at hg
      simpa using hg
    · next hg =>
      obtain ⟨hv, he⟩ := bool_guard_false (by simpa using hg)
      simp only [FixedRingBuffer.is_valid] at hv
      simp only [FixedRingBuffer.is_empty, beq_eq_false_iff_ne, ne_eq] at he
      constructor
      · intro hcon
        simp at hcon
      · intro hcon
        rcases hcon with hcon | hcon
        · rw [hv] at hcon
          cases hcon
        · exact absurd hcon he
  · intro b hb
    rcases rb_pop_cases b with heq | ⟨_, _, heq⟩
    · rw [heq] at hb
      simp at hb
    · exact heq

/-- Witness for C5: the first push into a fresh capacity-4 buffer succeeds
with the stated effect, and popping the resulting buffer hands out that
element with the stated effect. -/
theorem C5_witness :
    FixedRingBuffer.push (mkFixedRingBuffer Int 4 true) 10 =
      ({ mkFixedRingBuffer Int 4 true with
          data := (mkFixedRingBuffer Int 4 true).data.set
            (mkFixedRingBuffer Int 4 true).tail 10
          tail := ((mkFixedRingBuffer Int 4 true).tail + 1) %
            (mkFixedRingBuffer Int 4 true).capacity
          size := (mkFixedRingBuffer Int 4 true).size + 1 }, true) ∧
    FixedRingBuffer.pop (FixedRingBuffer.push (mkFixedRingBuffer Int 4 true) 10).1 =
      ({ (FixedRingBuffer.push (mkFixedRingBuffer Int 4 true) 10).1 with
          head := ((FixedRingBuffer.push (mkFixedRingBuffer Int 4 true) 10).1.head + 1) %
            (FixedRingBuffer.push (mkFixedRingBuffer Int 4 true) 10).1.capacity
          size := (FixedRingBuffer.push (mkFixedRingBuffer Int 4 true) 10).1.size - 1 },
        some (getE (FixedRingBuffer.push (mkFixedRingBuffer Int 4 true) 10).1.data
          (FixedRingBuffer.push (mkFixedRingBuffer Int 4 true) 10).1.head)) :=
  ⟨C5_ring_reject_fifo.2.1 (mkFixedRingBuffer Int 4 true) 10 (by decide),
    C5_ring_reject_fifo.2.2.2.1
      (FixedRingBuffer.push (mkFixedRingBuffer Int 4 true) 10).1 (by decide)⟩

/-- C4: the overwrite-mode circular buffer (modelled from the spec, the
overwrite variant being absent from the sources): `push` returns true on
every valid buffer; on a full buffer it advances `head` first, discarding
the oldest element, then writes at `tail`; pushing 1, 2, 3, 4 into a fresh
capacity-3 overwrite buffer returns true every time and leaves logical
contents 2, 3, 4. -/
theorem C4_ring_overwrite {α : Type} [Inhabited α] :
    (∀ (b : FixedRingBuffer α) (x : α), b.valid = true →
      (FixedRingBuffer.push_overwrite b x).2 = true) ∧
    (∀ (b : FixedRingBuffer α) (x : α), b.valid = true → b.capacity ≤ b.size →
      FixedRingBuffer.push_overwrite b x =
        ({ b with
            data := b.data.set b.tail x
            head := (b.head + 1) % b.capacity
            tail := (b.tail + 1) % b.capacity
            size := b.size - 1 + 1 }, true)) ∧
    ((FixedRingBuffer.push_overwrite (mkFixedRingBuffer Int 3 true) 1).2 = true ∧
      (FixedRingBuffer.push_overwrite
        (FixedRingBuffer.push_overwrite (mkFixedRingBuffer Int 3 true) 1).1 2).2 = true ∧
      (FixedRingBuffer.push_overwrite (FixedRingBuffer.push_overwrite
        (FixedRingBuffer.push_overwrite (mkFixedRingBuffer Int 3 true) 1).1 2).1 3).2 = true ∧
      (FixedRingBuffer.push_overwrite (FixedRingBuffer.push_overwrite
        (FixedRingBuffer.push_overwrite (FixedRingBuffer.push_overwrite
          (mkFixedRingBuffer Int 3 true) 1).1 2).1 3).1 4).2 = true ∧
      FixedRingBuffer.logicalList (FixedRingBuffer.push_overwrite
        (FixedRingBuffer.push_overwrite (FixedRingBuffer.push_overwrite
          (FixedRingBuffer.push_overwrite
            (mkFixedRingBuffer Int 3 true) 1).1 2).1 3).1 4).1 = [2, 3, 4]) := by
  refine ⟨?_, ?_, by decide⟩
  · intro b x hv
    rw [FixedRingBuffer.push_overwrite,
      if_neg (by simp [FixedRingBuffer.is_valid, hv])]
  · intro b x hv hfull
    rw [FixedRingBuffer.push_overwrite,
      if_neg (by simp [FixedRingBuffer.is_valid, hv])]
    dsimp only
    rw [if_pos (by simp only [FixedRingBuffer.is_full, decide_eq_true_iff]; omega)]
    rfl

/-- Witness for C4: the fourth push into the full capacity-3 buffer. -/
theorem C4_witness :
    (FixedRingBuffer.push_overwrite (FixedRingBuffer.push_overwrite
      (FixedRingBuffer.push_overwrite (FixedRingBuffer.push_overwrite
        (mkFixedRingBuffer Int 3 true) 1).1 2).1 3).1 4).2 = true :=
  C4_ring_overwrite.1
    (FixedRingBuffer.push_overwrite (FixedRingBuffer.push_overwrite
      (FixedRingBuffer.push_overwrite
        (mkFixedRingBuffer Int 3 true) 1).1 2).1 3).1 4 (by decide)

/-- C10: on every success path the internally computed raw indices stay
inside the live range of the allocated buffer: `pop`, `remove_at` and
`remove_first` only evaluate `size - 1` (and the shift bounds) after their
guards passed, so the index is strictly below both size and the array
length — the `size_t` underflow at `size == 0` is unreachable; and the ring
buffer's modulo-by-capacity helpers only run on valid buffers, whose
capacity is positive in every reachable state, so division by zero is
unreachable through `push` or `pop`. -/
theorem C10_index_safety {α β : Type} [Inhabited α] [Inhabited β]
    {ip : IndexingPolicy α} {dp : DuplicationPolicy α} {cap : Nat} {ok : Bool}
    {c : LinearCollection α} (hip : LawfulIndexing ip)
    (hc : Reach ip dp cap ok c)
    {bcap : Nat} {bok : Bool} {b : FixedRingBuffer β} (hb : RBReach bcap bok b) :
    ((LinearCollection.pop ip c).2 ≠ none →
      0 < c.size ∧ ip.get_pop_index c.data c.size < c.size ∧
        ip.get_pop_index c.data c.size < c.data.length) ∧
    (∀ index, (LinearCollection.remove_at ip c index).2 ≠ none →
      index < c.size ∧ index < c.data.length) ∧
    (∀ item, (LinearCollection.remove_first ip c item).2 = true →
      ip.find_index c.data c.size item < c.size ∧
        ip.find_index c.data c.size item < c.data.length) ∧
    (b.valid = true → 0 < b.capacity) ∧
    (∀ x, (FixedRingBuffer.push b x).2 = true → 0 < b.capacity) ∧
    ((FixedRingBuffer.pop b).2 ≠ none → 0 < b.capacity) := by
  obtain ⟨hinv, _, _⟩ := Reach_preserves hip hc
  obtain ⟨hbinv, _, _⟩ := RBReach_preserves hb
  have hlen : c.valid = true → c.size ≤ c.data.length := fun hv => by
    have := hinv.2.1 hv
    have := hinv.1
    omega
  refine ⟨?_, ?_, ?_, fun hv => (hbinv.2.1 hv).2, ?_, ?_⟩
  · intro hpop
    cases hopt : (LinearCollection.pop ip c).2 with
    | none => exact absurd hopt hpop
    | some v =>
      obtain ⟨hval, hpos, _, _⟩ := pop_success c hopt
      rw [hip.get_pop_index_eq]
      have := hlen hval
      exact ⟨hpos, by omega, by omega⟩
  · intro index hrem
    cases hopt : (LinearCollection.remove_at ip c index).2 with
    | none => exact absurd hopt hrem
    | some v =>
      obtain ⟨hval, _, hidx, _, _⟩ := remove_at_success c index hopt
      have := hlen hval
      exact ⟨hidx, by omega⟩
  · intro item hremf
    obtain ⟨hval, _, hfind, _⟩ := remove_first_success c item hremf
    have h1 := hip.find_index_le c.data c.size item
    have := hlen hval
    exact ⟨by omega, by omega⟩
  · intro x hpush
    rcases rb_push_cases b x with heq | ⟨hv, _, _⟩
    · rw [heq] at hpush
      simp at hpush
    · exact (hbinv.2.1 hv).2
  · intro hpop
    rcases rb_pop_cases b with heq | ⟨hv, _, _⟩
    · rw [heq] at hpop
      simp at hpop
    · exact (hbinv.2.1 hv).2

/-- Witness for C10: a one-element sequential collection (whose pop
succeeds) and a one-element capacity-2 ring buffer. -/
theorem C10_witness :
    (((LinearCollection.pop (SequentialIndexingPolicy beqInt)
        (LinearCollection.push (SequentialIndexingPolicy beqInt)
          AllowDuplicationPolicy (mkLinearCollection Int 2 true) 7).1).2 ≠ none →
      0 < (LinearCollection.push (SequentialIndexingPolicy beqInt)
          AllowDuplicationPolicy (mkLinearCollection Int 2 true) 7).1.size ∧
      (SequentialIndexingPolicy beqInt).get_pop_index
          (LinearCollection.push (SequentialIndexingPolicy beqInt)
            AllowDuplicationPolicy (mkLinearCollection Int 2 true) 7).1.data
          (LinearCollection.push (SequentialIndexingPolicy beqInt)
            AllowDuplicationPolicy (mkLinearCollection Int 2 true) 7).1.size <
        (LinearCollection.push (SequentialIndexingPolicy beqInt)
          AllowDuplicationPolicy (mkLinearCollection Int 2 true) 7).1.size ∧
      (SequentialIndexingPolicy beqInt).get_pop_index
          (LinearCollection.push (SequentialIndexingPolicy beqInt)
            AllowDuplicationPolicy (mkLinearCollection Int 2 true) 7).1.data
          (LinearCollection.push (SequentialIndexingPolicy beqInt)
            AllowDuplicationPolicy (mkLinearCollection Int 2 true) 7).1.size <
        (LinearCollection.push (SequentialIndexingPolicy beqInt)
          AllowDuplicationPolicy (mkLinearCollection Int 2 true) 7).1.data.length)) ∧
    ((FixedRingBuffer.push (mkFixedRingBuffer Int 2 true) 9).1.valid = true →
      0 < (FixedRingBuffer.push (mkFixedRingBuffer Int 2 true) 9).1.capacity) :=
  ⟨(@C10_index_safety Int Int _ _ (SequentialIndexingPolicy beqInt)
      AllowDuplicationPolicy 2 true _ (lawful_sequential beqInt)
      (Reach.step Reach.init (Step.push _ 7)) 2 true _
      (RBReach.step RBReach.init (RBStep.push _ 9))).1,
    (@C10_index_safety Int Int _ _ (SequentialIndexingPolicy beqInt)
      AllowDuplicationPolicy 2 true _ (lawful_sequential beqInt)
      (Reach.step Reach.init (Step.push _ 7)) 2 true _
      (RBReach.step RBReach.init (RBStep.push _ 9))).2.2.2.1⟩

/-- C2: for every Ordered facade under a strict-weak-order comparator and
every sequence of operations starting from construction, the live prefix
is always sorted under the configured comparator — non-decreasing for
`Ascending` (`lt a b = a < b`), non-increasing for `Descending`
(`lt a b = a > b`), since `SortedLive lt` says no later live cell is
`lt`-below an earlier one. -/
theorem C2_ordered_always_sorted {α : Type} [Inhabited α]
    {lt beq : α → α → Bool} (h : IsStrictWeakOrder lt beq)
    {dp : DuplicationPolicy α} {cap : Nat} {ok : Bool}
    {c : LinearCollection α} (hr : OrderedReach lt beq dp cap ok c) :
    SortedLive lt c :=
  (OrderedReach_sorted h hr).2

/-- Witness for C2: an ascending Ordered vector over `Int` after inserting
5 and then 2. -/
theorem C2_witness :
    SortedLive ascendingInt
      (LinearCollection.push (OrderedIndexingPolicy ascendingInt beqInt)
        AllowDuplicationPolicy
        (LinearCollection.push (OrderedIndexingPolicy ascendingInt beqInt)
          AllowDuplicationPolicy (mkLinearCollection Int 3 true) 5).1 2).1 :=
  C2_ordered_always_sorted intAscSWO
    (OrderedReach.step (OrderedReach.step OrderedReach.init
      (OrderedStep.push _ 5)) (OrderedStep.push _ 2))

/-- C8: no mutating operation has a partial-failure state.  `push` on a
full collection fails and changes nothing; `insert_at` past the size fails;
and whenever any of the mutating operations reports failure the state is
exactly the input state (for `remove_all`, for each of the two shipped
indexing policies). -/
theorem C8_no_partial_failure {α : Type} [Inhabited α] :
    (∀ (ip : IndexingPolicy α) (dp : DuplicationPolicy α)
      (c : LinearCollection α) (item : α), c.capacity ≤ c.size →
        LinearCollection.push ip dp c item = (c, false)) ∧
    (∀ (ip : IndexingPolicy α) (dp : DuplicationPolicy α)
      (c : LinearCollection α) (item : α) (index : Nat), c.size < index →
        LinearCollection.insert_at ip dp c item index = (c, false)) ∧
    (∀ (ip : IndexingPolicy α) (dp : DuplicationPolicy α)
      (c : LinearCollection α) (item : α),
        (LinearCollection.push ip dp c item).2 = false →
        (LinearCollection.push ip dp c item).1 = c) ∧
    (∀ (ip : IndexingPolicy α) (c : LinearCollection α),
        (LinearCollection.pop ip c).2 = none →
        (LinearCollection.pop ip c).1 = c) ∧
    (∀ (ip : IndexingPolicy α) (dp : DuplicationPolicy α)
      (c : LinearCollection α) (item : α) (index : Nat),
        (LinearCollection.insert_at ip dp c item index).2 = false →
        (LinearCollection.insert_at ip dp c item index).1 = c) ∧
    (∀ (ip : IndexingPolicy α) (c : LinearCollection α) (index : Nat),
        (LinearCollection.remove_at ip c index).2 = none →
        (LinearCollection.remove_at ip c index).1 = c) ∧
    (∀ (ip : IndexingPolicy α) (c : LinearCollection α) (item : α),
        (LinearCollection.remove_first ip c item).2 = false →
        (LinearCollection.remove_first ip c item).1 = c) ∧
    (∀ (lt beq : α → α → Bool) (c : LinearCollection α) (item : α),
        (LinearCollection.remove_all (OrderedIndexingPolicy lt beq) c item).2 = false →
        (LinearCollection.remove_all (OrderedIndexingPolicy lt beq) c item).1 = c) ∧
    (∀ (beq : α → α → Bool) (c : LinearCollection α) (item : α),
        (LinearCollection.remove_all (SequentialIndexingPolicy beq) c item).2 = false →
        (LinearCollection.remove_all (SequentialIndexingPolicy beq) c item).1 = c) :=
  ⟨fun ip dp c item h => push_full c item h,
    fun ip dp c item index h => insert_at_fail c item index (Or.inr (Or.inr (Or.inr h))),
    fun ip dp c item h => push_false_unchanged c item h,
    fun ip c h => pop_none_unchanged c h,
    fun ip dp c item index h => insert_at_false_unchanged c item index h,
    fun ip c index h => remove_at_none_unchanged c index h,
    fun ip c item h => remove_first_false_unchanged c item h,
    fun lt beq c item h => remove_all_false_unchanged
      (fun data size item => ord_remove_all_zero lt beq data size item) c item h,
    fun beq c item h => remove_all_false_unchanged
      (fun data size item => seq_remove_all_zero beq data size item) c item h⟩

/-- Witness for C8: pushing into a full capacity-1 list fails unchanged,
and inserting at index 1 of an empty collection fails unchanged. -/
theorem C8_witness :
    LinearCollection.push (SequentialIndexingPolicy beqInt) AllowDuplicationPolicy
      (LinearCollection.push (SequentialIndexingPolicy beqInt)
        AllowDuplicationPolicy (mkLinearCollection Int 1 true) 3).1 4 =
      ((LinearCollection.push (SequentialIndexingPolicy beqInt)
        AllowDuplicationPolicy (mkLinearCollection Int 1 true) 3).1, false) ∧
    LinearCollection.insert_at (SequentialIndexingPolicy beqInt)
      AllowDuplicationPolicy (mkLinearCollection Int 2 true) 5 1 =
      (mkLinearCollection Int 2 true, false) :=
  ⟨C8_no_partial_failure.1 (SequentialIndexingPolicy beqInt)
      AllowDuplicationPolicy _ 4 (by decide),
    C8_no_partial_failure.2.1 (SequentialIndexingPolicy beqInt)
      AllowDuplicationPolicy _ 5 1 (by decide)⟩

/-- C1: behaviour of `remove_all` on an Ordered collection, as the
documentation and the spec describe it.  The statement in the source,
`data[current_index - count = data[current_index]];`, is ill-formed C++
(assignment to an rvalue of type `size_t`), so the shift is embedded as the
documented `data[current_index - count] = data[current_index];` — see
`removeAllShiftLoop`.  On a valid collection with a sorted live prefix,
`remove_all(item)` removes exactly the live cells equal to `item` (a
contiguous block, located by the two binary searches), the survivors keep
their relative order (the live prefix becomes the filtered old prefix),
the size drops by the removed count, capacity and validity are untouched,
and the call returns true iff at least one cell was removed. -/
theorem C1_remove_all_intended {α : Type} [Inhabited α] {lt beq : α → α → Bool}
    (h : IsStrictWeakOrder lt beq) (c : LinearCollection α) (item : α)
    (hinv : Sinv c) (hsort : SortedLive lt c) (hval : c.valid = true) :
    ((LinearCollection.remove_all (OrderedIndexingPolicy lt beq) c item).2 = true ↔
      ∃ i, i < c.size ∧ beq (getE c.data i) item = true) ∧
    LinearCollection.live
        (LinearCollection.remove_all (OrderedIndexingPolicy lt beq) c item).1 =
      (LinearCollection.live c).filter (fun x => !beq x item) ∧
    (LinearCollection.remove_all (OrderedIndexingPolicy lt beq) c item).1.size =
      ((LinearCollection.live c).filter (fun x => !beq x item)).length ∧
    (LinearCollection.remove_all (OrderedIndexingPolicy lt beq) c item).1.capacity =
      c.capacity ∧
    (LinearCollection.remove_all (OrderedIndexingPolicy lt beq) c item).1.valid =
      c.valid := by
  have hlen : c.size ≤ c.data.length := by
    have h1 := hinv.2.1 hval
    have h2 := hinv.1
    omega
  have hlive : LinearCollection.live c = c.data.take c.size := rfl
  by_cases hsz : c.size = 0
  · rw [remove_all_invalid_or_empty c item (Or.inr hsz)]
    have hempty : LinearCollection.live c = [] := by
      rw [hlive, hsz]
      rfl
    refine ⟨?_, ?_, ?_, rfl, rfl⟩
    · simp only [show ((c, false) :
        LinearCollection α × Bool).2 = false from rfl]
      constructor
      · intro hcon
        cases hcon
      · intro ⟨i, hi, _⟩
        omega
    · rw [hempty]
      rfl
    · rw [hempty]
      simp [hsz]
  · rw [remove_all_guarded c item hval (by omega)]
    have hspec := ord_remove_all_spec h c.data c.size item hsort hlen
    have heq : ((OrderedIndexingPolicy lt beq).remove_all c.data c.size item) =
        ord_remove_all lt beq c.data c.size item := rfl
    obtain ⟨hsl, hcnt, hcle, htake, hiff⟩ := hspec
    have hlivelen : (LinearCollection.live c).length = c.size := by
      rw [hlive]
      simp only [List.length_take]
      omega
    have hfle : ((LinearCollection.live c).filter fun x => !beq x item).length ≤
        c.size := by
      rw [← hlivelen]
      exact List.length_filter_le _ _
    refine ⟨?_, ?_, ?_, rfl, rfl⟩
    · show (decide (0 < ((OrderedIndexingPolicy lt beq).remove_all
        c.data c.size item).2)) = true ↔ _
      rw [heq]
      simp only [decide_eq_true_iff]
      exact hiff
    · show (ord_remove_all lt beq c.data c.size item).1.take
        (c.size - (ord_remove_all lt beq c.data c.size item).2) = _
      rw [htake, hlive]
    · show c.size - (ord_remove_all lt beq c.data c.size item).2 = _
      rw [hlive] at hfle ⊢
      rw [hcnt]
      have harith : ∀ s f : Nat, f ≤ s → s - (s - f) = f := by
        intro s f hf
        omega
      exact harith c.size _ hfle

/-- A concrete ascending Ordered collection: capacity 4, live prefix 1, 1, 2. -/
def sample112 : LinearCollection Int where
  valid := true
  capacity := 4
  size := 3
  data := [1, 1, 2, 0]

/-- Witness for C1: the ascending Ordered collection with live prefix
1, 1, 2: `remove_all(1)` removes both 1s, keeps the 2, reports true. -/
theorem C1_witness :
    ((LinearCollection.remove_all (OrderedIndexingPolicy ascendingInt beqInt)
        sample112 1).2 = true ↔
      ∃ i, i < sample112.size ∧
        beqInt (getE sample112.data i) 1 = true) ∧
    LinearCollection.live
        (LinearCollection.remove_all (OrderedIndexingPolicy ascendingInt beqInt)
          sample112 1).1 =
      (LinearCollection.live sample112).filter (fun x => !beqInt x 1) ∧
    (LinearCollection.remove_all (OrderedIndexingPolicy ascendingInt beqInt)
        sample112 1).1.size =
      ((LinearCollection.live sample112).filter (fun x => !beqInt x 1)).length ∧
    (LinearCollection.remove_all (OrderedIndexingPolicy ascendingInt beqInt)
        sample112 1).1.capacity = sample112.capacity ∧
    (LinearCollection.remove_all (OrderedIndexingPolicy ascendingInt beqInt)
        sample112 1).1.valid = sample112.valid :=
  C1_remove_all_intended intAscSWO sample112 1
    (by refine ⟨by decide, fun _ => by decide, fun hcon => by cases hcon⟩)
    (by unfold SortedLive sortedB sample112
        decide)
    rfl

theorem getE_set_eq {α : Type} [Inhabited α] (l : List α) (n : Nat) (a : α)
    (h : n < l.length) : getE (l.set n a) n = a := by
  rw [getE_eq_getElem _ n (by rw [List.length_set]; exact h)]
  simp [List.getElem_set]

/-- `BaseShiftIndexingPolicy::insert` writes `item` at the target index. -/
theorem bsp_insert_getE_at {α : Type} [Inhabited α] (data : List α) (size t : Nat)
    (item : α) (h2 : t < data.length) :
    getE (bsp_insert data size t item) t = item := by
  rw [bsp_insert]
  apply getE_set_eq
  rw [length_shiftRightLoop]
  exact h2

/-- An admitted `push` (guards pass, duplication check passes) appends at
the policy's index and reports true. -/
theorem push_accepted {α : Type} [Inhabited α] {ip : IndexingPolicy α}
    {dp : DuplicationPolicy α} (c : LinearCollection α) (item : α)
    (hval : c.valid = true) (hfull : c.size < c.capacity)
    (hallow : pushAllowed ip dp c item = true) :
    LinearCollection.push ip dp c item =
      ({ c with
          data := ip.insert c.data c.size (pushIndex ip dp c item) item
          size := c.size + 1 }, true) := by
  have hguard : (!LinearCollection.is_valid c || LinearCollection.is_full c) = false := by
    simp only [LinearCollection.is_valid, LinearCollection.is_full, hval,
      Bool.not_true, Bool.false_or, decide_eq_false_iff_not]
    omega
  rw [push_eq_ite, if_neg (by simp [hguard]), if_neg (by simp [hallow])]

/-- `SequentialIndexingPolicy::get_push_index` is the current size under
the Forbid policy's `push` path. -/
theorem pushIndex_sequential {α : Type} [Inhabited α] (beq : α → α → Bool)
    (dp : DuplicationPolicy α) (c : LinearCollection α) (item : α) :
    pushIndex (SequentialIndexingPolicy beq) dp c item = c.size := by
  rw [pushIndex, if_neg]
  · rfl
  · simp [SequentialIndexingPolicy]

/-- A sequential Forbid `push` of an item already present among the live
cells is rejected and changes nothing. -/
theorem seq_forbid_push_present {α : Type} [Inhabited α] (beq : α → α → Bool)
    (c1 : LinearCollection α) (x : α) (i : Nat) (hi : i < c1.size)
    (hx : beq (getE c1.data i) x = true) :
    LinearCollection.push (SequentialIndexingPolicy beq) (ForbidDuplicationPolicy beq)
      c1 x = (c1, false) := by
  apply push_rejected
  rw [pushAllowed_seq_forbid]
  have hne : seq_find_index beq c1.data c1.size x ≠ c1.size := by
    intro hcon
    have hall := (seqFindLoop_eq_size_iff beq c1.data c1.size x 0).mp hcon
    have hfalse := hall i (Nat.zero_le i) hi
    rw [hx] at hfalse
    simp at hfalse
  cases hc : (seq_find_index beq c1.data c1.size x == c1.size)
  · rfl
  · exact (hne (eq_of_beq hc)).elim

/-- An ordered Forbid `push` of an item `beq`-equal to some live cell of a
sorted collection is rejected and changes nothing. -/
theorem ord_forbid_push_present {α : Type} [Inhabited α] {lt beq : α → α → Bool}
    (h : IsStrictWeakOrder lt beq) (c1 : LinearCollection α) (x : α)
    (hsort : SortedLive lt c1) (hlen : c1.size ≤ c1.data.length) (i : Nat)
    (hi : i < c1.size) (hx : beq (getE c1.data i) x = true) :
    LinearCollection.push (OrderedIndexingPolicy lt beq) (ForbidDuplicationPolicy beq)
      c1 x = (c1, false) := by
  apply push_rejected
  rw [pushAllowed_ord_forbid]
  obtain ⟨hfl, hfb⟩ := get_push_index_found h c1.data c1.size x hsort hlen i hi hx
  have hfound : (ord_find_insert_position lt beq c1.data c1.size x).found = true := by
    show ((ord_get_push_index lt c1.data c1.size x != c1.size) &&
      beq x (getE c1.data (ord_get_push_index lt c1.data c1.size x))) = true
    rw [h.beq_symm hfb]
    simp only [Bool.and_true, bne_iff_ne, ne_eq]
    omega
  rw [hfound]
  rfl

/-- A concrete sequential Forbid collection already holding a 5: capacity 2,
size 1, valid and not full. -/
def sample5 : LinearCollection Int where
  valid := true
  capacity := 2
  size := 1
  data := [5, 0]

/-- C3, counterexample to the frozen wording: a valid, not-full Forbid
collection that already contains the element 5.  Both calls of `insert(5)`
return false, so the pair of calls does not "succeed exactly once" and the
first call does not return true; the claim needs the precondition that no
live element equals `x`. -/
theorem C3_counterexample :
    sample5.valid = true ∧ sample5.size < sample5.capacity ∧
    (LinearCollection.push (SequentialIndexingPolicy beqInt)
      (ForbidDuplicationPolicy beqInt) sample5 5).2 = false ∧
    (LinearCollection.push (SequentialIndexingPolicy beqInt)
      (ForbidDuplicationPolicy beqInt)
      (LinearCollection.push (SequentialIndexingPolicy beqInt)
        (ForbidDuplicationPolicy beqInt) sample5 5).1 5).2 = false := by
  have hx : beqInt (getE sample5.data 0) 5 = true := by
    simp [sample5, getE, beqInt]
  have h1 := seq_forbid_push_present beqInt sample5 5 0 (by decide) hx
  refine ⟨rfl, by decide, ?_, ?_⟩
  · rw [h1]
  · rw [h1]
    show (LinearCollection.push (SequentialIndexingPolicy beqInt)
      (ForbidDuplicationPolicy beqInt) sample5 5).2 = false
    rw [h1]

/-- C3 (amended): for a valid, not-full Forbid collection in which no live
element equals `x`, `insert(x)` called twice succeeds exactly once: the
first call returns true and adds `x` (appended for Sequential placement,
inserted at the lower bound for Ordered placement), the second call returns
false and leaves the state unchanged.  Without the "no live element equals
`x`" precondition the first call can already return false, as
`C3_counterexample` shows. -/
theorem C3_forbid_insert_twice {α : Type} [Inhabited α] :
    (∀ (beq : α → α → Bool), (∀ a, beq a a = true) →
      ∀ (c : LinearCollection α) (x : α),
        Sinv c → c.valid = true → c.size < c.capacity →
        (∀ j, j < c.size → beq (getE c.data j) x = false) →
        (LinearCollection.push (SequentialIndexingPolicy beq)
            (ForbidDuplicationPolicy beq) c x).2 = true ∧
        (LinearCollection.push (SequentialIndexingPolicy beq)
            (ForbidDuplicationPolicy beq) c x).1.size = c.size + 1 ∧
        LinearCollection.live (LinearCollection.push (SequentialIndexingPolicy beq)
            (ForbidDuplicationPolicy beq) c x).1 =
          LinearCollection.live c ++ [x] ∧
        LinearCollection.push (SequentialIndexingPolicy beq)
            (ForbidDuplicationPolicy beq)
            (LinearCollection.push (SequentialIndexingPolicy beq)
              (ForbidDuplicationPolicy beq) c x).1 x =
          ((LinearCollection.push (SequentialIndexingPolicy beq)
              (ForbidDuplicationPolicy beq) c x).1, false)) ∧
    (∀ (lt beq : α → α → Bool), IsStrictWeakOrder lt beq →
      ∀ (c : LinearCollection α) (x : α),
        Sinv c → SortedLive lt c → c.valid = true → c.size < c.capacity →
        (∀ j, j < c.size → beq (getE c.data j) x = false) →
        (LinearCollection.push (OrderedIndexingPolicy lt beq)
            (ForbidDuplicationPolicy beq) c x).2 = true ∧
        (LinearCollection.push (OrderedIndexingPolicy lt beq)
            (ForbidDuplicationPolicy beq) c x).1.size = c.size + 1 ∧
        LinearCollection.live (LinearCollection.push (OrderedIndexingPolicy lt beq)
            (ForbidDuplicationPolicy beq) c x).1 =
          (LinearCollection.live c).take (ord_get_push_index lt c.data c.size x) ++
            x :: (LinearCollection.live c).drop (ord_get_push_index lt c.data c.size x) ∧
        LinearCollection.push (OrderedIndexingPolicy lt beq)
            (ForbidDuplicationPolicy beq)
            (LinearCollection.push (OrderedIndexingPolicy lt beq)
              (ForbidDuplicationPolicy beq) c x).1 x =
          ((LinearCollection.push (OrderedIndexingPolicy lt beq)
              (ForbidDuplicationPolicy beq) c x).1, false)) := by
  constructor
  · intro beq hrefl c x hinv hval hfull habs
    have hlen : c.data.length = c.capacity := hinv.2.1 hval
    have hfind : seq_find_index beq c.data c.size x = c.size :=
      (seqFindLoop_eq_size_iff beq c.data c.size x 0).mpr (fun j _ hj => habs j hj)
    have hallow : pushAllowed (SequentialIndexingPolicy beq)
        (ForbidDuplicationPolicy beq) c x = true := by
      rw [pushAllowed_seq_forbid, hfind]
      simp
    have hpush1 := push_accepted c x hval hfull hallow
    have hpi := pushIndex_sequential beq (ForbidDuplicationPolicy beq) c x
    refine ⟨?_, ?_, ?_, ?_⟩
    · rw [hpush1]
    · rw [hpush1]
    · rw [hpush1]
      show (bsp_insert c.data c.size
          (pushIndex (SequentialIndexingPolicy beq) (ForbidDuplicationPolicy beq) c x)
          x).take (c.size + 1) = _
      rw [hpi, bsp_insert_live c.data c.size c.size x (le_refl c.size) (by omega)]
      have h1 : (c.data.take c.size).take c.size = c.data.take c.size :=
        List.take_of_length_le (by rw [List.length_take]; omega)
      have h2 : (c.data.take c.size).drop c.size = [] :=
        List.drop_eq_nil_of_le (by rw [List.length_take]; omega)
      rw [h1, h2]
      rfl
    · apply seq_forbid_push_present beq _ x c.size
      · rw [hpush1]
        exact Nat.lt_succ_self c.size
      · rw [hpush1]
        show beq (getE (bsp_insert c.data c.size
          (pushIndex (SequentialIndexingPolicy beq) (ForbidDuplicationPolicy beq) c x)
          x) c.size) x = true
        rw [hpi, bsp_insert_getE_at c.data c.size c.size x (by omega)]
        exact hrefl x
  · intro lt beq hswo c x hinv hsort hval hfull habs
    have hlen : c.data.length = c.capacity := hinv.2.1 hval
    have hrle : ord_get_push_index lt c.data c.size x ≤ c.size :=
      get_push_index_le lt c.data c.size x
    have hfound0 : (ord_find_insert_position lt beq c.data c.size x).found = false := by
      show ((ord_get_push_index lt c.data c.size x != c.size) &&
        beq x (getE c.data (ord_get_push_index lt c.data c.size x))) = false
      by_cases hr : ord_get_push_index lt c.data c.size x = c.size
      · rw [hr]
        simp
      · have hrlt : ord_get_push_index lt c.data c.size x < c.size :=
          Nat.lt_of_le_of_ne hrle hr
        have habsr := habs _ hrlt
        have hxfalse : beq x (getE c.data (ord_get_push_index lt c.data c.size x)) = false := by
          cases hc : beq x (getE c.data (ord_get_push_index lt c.data c.size x))
          · rfl
          · exfalso
            have := hswo.beq_symm hc
            rw [habsr] at this
            exact Bool.false_ne_true this
        rw [hxfalse]
        simp
    have hallow : pushAllowed (OrderedIndexingPolicy lt beq)
        (ForbidDuplicationPolicy beq) c x = true := by
      rw [pushAllowed_ord_forbid, hfound0]
      rfl
    have hpush1 := push_accepted c x hval hfull hallow
    have hstep : OrderedStep lt beq (ForbidDuplicationPolicy beq) c
        (LinearCollection.push (OrderedIndexingPolicy lt beq)
          (ForbidDuplicationPolicy beq) c x).1 :=
      OrderedStep.push c x
    have hpres := OrderedStep_preserves hswo hstep ⟨hinv, hsort⟩
    have hval1 : (LinearCollection.push (OrderedIndexingPolicy lt beq)
        (ForbidDuplicationPolicy beq) c x).1.valid = true := by
      rw [hpush1]
      exact hval
    have hlen1 : (LinearCollection.push (OrderedIndexingPolicy lt beq)
        (ForbidDuplicationPolicy beq) c x).1.size ≤
        (LinearCollection.push (OrderedIndexingPolicy lt beq)
          (ForbidDuplicationPolicy beq) c x).1.data.length := by
      have h1 := hpres.1.2.1 hval1
      have h2 := hpres.1.1
      omega
    refine ⟨?_, ?_, ?_, ?_⟩
    · rw [hpush1]
    · rw [hpush1]
    · rw [hpush1]
      show (bsp_insert c.data c.size
          (pushIndex (OrderedIndexingPolicy lt beq) (ForbidDuplicationPolicy beq) c x)
          x).take (c.size + 1) = _
      rw [pushIndex_ordered]
      exact bsp_insert_live c.data c.size (ord_get_push_index lt c.data c.size x) x
        hrle (by omega)
    · apply ord_forbid_push_present hswo _ x hpres.2 hlen1
        (ord_get_push_index lt c.data c.size x)
      · rw [hpush1]
        show ord_get_push_index lt c.data c.size x < c.size + 1
        omega
      · rw [hpush1]
        show beq (getE (bsp_insert c.data c.size
          (pushIndex (OrderedIndexingPolicy lt beq) (ForbidDuplicationPolicy beq) c x)
          x) (ord_get_push_index lt c.data c.size x)) x = true
        rw [pushIndex_ordered,
          bsp_insert_getE_at c.data c.size (ord_get_push_index lt c.data c.size x) x
            (by omega)]
        exact hswo.beq_refl x

/-- The empty Forbid collection of capacity 2 used by the C3 witness. -/
def c3Empty : LinearCollection Int := mkLinearCollection Int 2 true

/-- Witness for C3: inserting 5 twice into the empty capacity-2 collection,
once per placement family. -/
theorem C3_witness :
    ((LinearCollection.push (SequentialIndexingPolicy beqInt)
        (ForbidDuplicationPolicy beqInt) c3Empty 5).2 = true ∧
      (LinearCollection.push (SequentialIndexingPolicy beqInt)
        (ForbidDuplicationPolicy beqInt) c3Empty 5).1.size = c3Empty.size + 1 ∧
      LinearCollection.live (LinearCollection.push (SequentialIndexingPolicy beqInt)
        (ForbidDuplicationPolicy beqInt) c3Empty 5).1 =
        LinearCollection.live c3Empty ++ [5] ∧
      LinearCollection.push (SequentialIndexingPolicy beqInt)
          (ForbidDuplicationPolicy beqInt)
          (LinearCollection.push (SequentialIndexingPolicy beqInt)
            (ForbidDuplicationPolicy beqInt) c3Empty 5).1 5 =
        ((LinearCollection.push (SequentialIndexingPolicy beqInt)
            (ForbidDuplicationPolicy beqInt) c3Empty 5).1, false)) ∧
    ((LinearCollection.push (OrderedIndexingPolicy ascendingInt beqInt)
        (ForbidDuplicationPolicy beqInt) c3Empty 5).2 = true ∧
      (LinearCollection.push (OrderedIndexingPolicy ascendingInt beqInt)
        (ForbidDuplicationPolicy beqInt) c3Empty 5).1.size = c3Empty.size + 1 ∧
      LinearCollection.live (LinearCollection.push (OrderedIndexingPolicy ascendingInt beqInt)
        (ForbidDuplicationPolicy beqInt) c3Empty 5).1 =
        (LinearCollection.live c3Empty).take
            (ord_get_push_index ascendingInt c3Empty.data c3Empty.size 5) ++
          5 :: (LinearCollection.live c3Empty).drop
            (ord_get_push_index ascendingInt c3Empty.data c3Empty.size 5) ∧
      LinearCollection.push (OrderedIndexingPolicy ascendingInt beqInt)
          (ForbidDuplicationPolicy beqInt)
          (LinearCollection.push (OrderedIndexingPolicy ascendingInt beqInt)
            (ForbidDuplicationPolicy beqInt) c3Empty 5).1 5 =
        ((LinearCollection.push (OrderedIndexingPolicy ascendingInt beqInt)
            (ForbidDuplicationPolicy beqInt) c3Empty 5).1, false)) :=
  ⟨C3_forbid_insert_twice.1 beqInt (fun a => by simp [beqInt]) c3Empty 5
      ⟨by decide, fun _ => by decide, fun hcon => absurd hcon (by decide)⟩
      rfl (by decide) (fun j hj => (Nat.not_lt_zero j hj).elim),
    C3_forbid_insert_twice.2 ascendingInt beqInt intAscSWO c3Empty 5
      ⟨by decide, fun _ => by decide, fun hcon => absurd hcon (by decide)⟩
      (by unfold SortedLive sortedB c3Empty
          decide)
      rfl (by decide) (fun j hj => (Nat.not_lt_zero j hj).elim)⟩

theorem mapLt_iff {V : Type} [Inhabited V] (a b : KeyValue Nat V) :
    mapLt a b = true ↔ a.key < b.key := by
  simp only [mapLt, kvLt, kvGe, kvGt, kvEq, Bool.not_eq_true', Bool.or_eq_false_iff,
    decide_eq_false_iff_not, beq_eq_false_iff_ne, ne_eq]
  omega

theorem mapLt_eq_false_iff {V : Type} [Inhabited V] (a b : KeyValue Nat V) :
    mapLt a b = false ↔ b.key ≤ a.key := by
  rw [Bool.eq_false_iff]
  simp only [ne_eq, mapLt_iff]
  omega

theorem mapEq_iff {V : Type} [Inhabited V] (a b : KeyValue Nat V) :
    mapEq a b = true ↔ a.key = b.key := by
  simp [mapEq, kvEq]

/-- `Ascending<KeyValue>` with `KeyValue::operator==` is a strict weak
order: the map engine meets the Ordered policy's comparator contract. -/
theorem mapSWO {V : Type} [Inhabited V] :
    IsStrictWeakOrder (mapLt (V := V)) mapEq := by
  refine ⟨?_, ?_, ?_, ?_⟩
  · intro a
    rw [mapLt_eq_false_iff]
  · intro a b c hab hbc
    rw [mapLt_iff] at hab hbc ⊢
    omega
  · intro a b
    rw [mapEq_iff, mapLt_eq_false_iff, mapLt_eq_false_iff]
    omega
  · intro a b c hab hbc
    rw [mapEq_iff] at hab hbc ⊢
    omega

/-- The empty map of capacity 4 backing the C9 chain. -/
def m0chain : LinearCollection (KeyValue Nat Nat) :=
  mkLinearCollection (KeyValue Nat Nat) 4 true

/-- The C9 chain state after `add(1, 100)`. -/
def m1chain : LinearCollection (KeyValue Nat Nat) where
  valid := true
  capacity := 4
  size := 1
  data := [{ key := 1, value := 100 }, { key := 0, value := 0 },
    { key := 0, value := 0 }, { key := 0, value := 0 }]

/-- The C9 chain state after `add(1, 100)` then `add(2, 200)`. -/
def m2chain : LinearCollection (KeyValue Nat Nat) where
  valid := true
  capacity := 4
  size := 2
  data := [{ key := 1, value := 100 }, { key := 2, value := 200 },
    { key := 0, value := 0 }, { key := 0, value := 0 }]

/-- The binary-search loop on an empty interval returns `left` at once. -/
theorem bsearchLoop_eq_left (p : Nat → Bool) (l : Nat) : bsearchLoop p l l = l := by
  rw [bsearchLoop, dif_neg (Nat.lt_irrefl l)]

/-- The binary-search loop on a one-element interval: one probe decides. -/
theorem bsearchLoop_one (p : Nat → Bool) (l : Nat) :
    bsearchLoop p l (l + 1) = if p l then l + 1 else l := by
  rw [bsearchLoop, dif_pos (show l < l + 1 by omega)]
  have hm : l + (l + 1 - l) / 2 = l := by omega
  rw [hm]
  cases hp : p l
  · rw [if_neg (show ¬(false = true) from Bool.false_ne_true)]
    exact bsearchLoop_eq_left p l
  · rw [if_pos (show true = true from rfl)]
    exact bsearchLoop_eq_left p (l + 1)

/-- The binary-search loop on a two-element interval: two probes decide. -/
theorem bsearchLoop_two (p : Nat → Bool) (l : Nat) :
    bsearchLoop p l (l + 2) =
      if p (l + 1) then l + 2 else if p l then l + 1 else l := by
  rw [bsearchLoop, dif_pos (show l < l + 2 by omega)]
  have hm : l + (l + 2 - l) / 2 = l + 1 := by omega
  rw [hm]
  cases hp : p (l + 1)
  · rw [if_neg (show ¬(false = true) from Bool.false_ne_true)]
    exact bsearchLoop_one p l
  · rw [if_pos (show true = true from rfl)]
    have h2 : l + 1 + 1 = l + 2 := by omega
    rw [h2]
    exact bsearchLoop_eq_left p (l + 2)

theorem chain_step1 : FixedMap.add m0chain 1 100 = (m1chain, true) := by
  have hidx : ord_get_push_index mapLt m0chain.data m0chain.size
      ({ key := 1, value := 100 } : KeyValue Nat Nat) = 0 := by
    rw [ord_get_push_index, show m0chain.size = 0 from rfl, bsearchLoop_eq_left]
  have hfound : (ord_find_insert_position mapLt mapEq m0chain.data m0chain.size
      ({ key := 1, value := 100 } : KeyValue Nat Nat)).found = false := by
    show ((ord_get_push_index mapLt m0chain.data m0chain.size
        ({ key := 1, value := 100 } : KeyValue Nat Nat) != m0chain.size) &&
      mapEq { key := 1, value := 100 } (getE m0chain.data
        (ord_get_push_index mapLt m0chain.data m0chain.size
          ({ key := 1, value := 100 } : KeyValue Nat Nat)))) = false
    rw [hidx]
    decide
  have hallow : pushAllowed (OrderedIndexingPolicy mapLt mapEq)
      (ForbidDuplicationPolicy mapEq) m0chain
      ({ key := 1, value := 100 } : KeyValue Nat Nat) = true := by
    rw [pushAllowed_ord_forbid, hfound]
    rfl
  have hins : (OrderedIndexingPolicy mapLt mapEq).insert m0chain.data m0chain.size 0
      ({ key := 1, value := 100 } : KeyValue Nat Nat) = m1chain.data := by
    show bsp_insert m0chain.data m0chain.size 0 { key := 1, value := 100 } = m1chain.data
    rw [bsp_insert, show m0chain.size = 0 from rfl, shiftRightLoop]
    decide
  have hp := push_accepted m0chain ({ key := 1, value := 100 } : KeyValue Nat Nat)
    rfl (by decide) hallow
  show LinearCollection.push (OrderedIndexingPolicy mapLt mapEq)
    (ForbidDuplicationPolicy mapEq) m0chain { key := 1, value := 100 } = (m1chain, true)
  rw [hp, pushIndex_ordered, hidx, hins]
  rfl

theorem chain_step2 : FixedMap.add m1chain 2 200 = (m2chain, true) := by
  have hidx : ord_get_push_index mapLt m1chain.data m1chain.size
      ({ key := 2, value := 200 } : KeyValue Nat Nat) = 1 := by
    rw [ord_get_push_index, show m1chain.size = 0 + 1 from rfl, bsearchLoop_one]
    decide
  have hfound : (ord_find_insert_position mapLt mapEq m1chain.data m1chain.size
      ({ key := 2, value := 200 } : KeyValue Nat Nat)).found = false := by
    show ((ord_get_push_index mapLt m1chain.data m1chain.size
        ({ key := 2, value := 200 } : KeyValue Nat Nat) != m1chain.size) &&
      mapEq { key := 2, value := 200 } (getE m1chain.data
        (ord_get_push_index mapLt m1chain.data m1chain.size
          ({ key := 2, value := 200 } : KeyValue Nat Nat)))) = false
    rw [hidx]
    decide
  have hallow : pushAllowed (OrderedIndexingPolicy mapLt mapEq)
      (ForbidDuplicationPolicy mapEq) m1chain
      ({ key := 2, value := 200 } : KeyValue Nat Nat) = true := by
    rw [pushAllowed_ord_forbid, hfound]
    rfl
  have hins : (OrderedIndexingPolicy mapLt mapEq).insert m1chain.data m1chain.size 1
      ({ key := 2, value := 200 } : KeyValue Nat Nat) = m2chain.data := by
    show bsp_insert m1chain.data m1chain.size 1 { key := 2, value := 200 } = m2chain.data
    rw [bsp_insert, show m1chain.size = 1 from rfl, shiftRightLoop]
    decide
  have hp := push_accepted m1chain ({ key := 2, value := 200 } : KeyValue Nat Nat)
    rfl (by decide) hallow
  show LinearCollection.push (OrderedIndexingPolicy mapLt mapEq)
    (ForbidDuplicationPolicy mapEq) m1chain { key := 2, value := 200 } = (m2chain, true)
  rw [hp, pushIndex_ordered, hidx, hins]
  rfl

theorem chain_step3 : FixedMap.add m2chain 1 999 = (m2chain, false) := by
  have hidx : ord_get_push_index mapLt m2chain.data m2chain.size
      ({ key := 1, value := 999 } : KeyValue Nat Nat) = 0 := by
    rw [ord_get_push_index, show m2chain.size = 0 + 2 from rfl, bsearchLoop_two]
    decide
  have hfound : (ord_find_insert_position mapLt mapEq m2chain.data m2chain.size
      ({ key := 1, value := 999 } : KeyValue Nat Nat)).found = true := by
    show ((ord_get_push_index mapLt m2chain.data m2chain.size
        ({ key := 1, value := 999 } : KeyValue Nat Nat) != m2chain.size) &&
      mapEq { key := 1, value := 999 } (getE m2chain.data
        (ord_get_push_index mapLt m2chain.data m2chain.size
          ({ key := 1, value := 999 } : KeyValue Nat Nat)))) = true
    rw [hidx]
    decide
  have hallow : pushAllowed (OrderedIndexingPolicy mapLt mapEq)
      (ForbidDuplicationPolicy mapEq) m2chain
      ({ key := 1, value := 999 } : KeyValue Nat Nat) = false := by
    rw [pushAllowed_ord_forbid, hfound]
    rfl
  exact push_rejected m2chain { key := 1, value := 999 } hallow

theorem chain_step4 : FixedMap.try_get m2chain 1 = some 100 := by
  have hidx : ord_get_push_index mapLt m2chain.data m2chain.size
      ({ key := 1, value := (default : Nat) } : KeyValue Nat Nat) = 0 := by
    rw [ord_get_push_index, show m2chain.size = 0 + 2 from rfl, bsearchLoop_two]
    decide
  have hfind : ord_find_index mapLt mapEq m2chain.data m2chain.size
      ({ key := 1, value := (default : Nat) } : KeyValue Nat Nat) = 0 := by
    rw [ord_find_index, hidx]
    decide
  show (if (ord_find_index mapLt mapEq m2chain.data m2chain.size
        ({ key := 1, value := (default : Nat) } : KeyValue Nat Nat) != m2chain.size) = true
      then some (getE m2chain.data (ord_find_index mapLt mapEq m2chain.data m2chain.size
        ({ key := 1, value := (default : Nat) } : KeyValue Nat Nat))).value
      else none) = some 100
  rw [hfind]
  decide

/-- C9: `FixedMap` behaves as an ordered-unique-by-key collection.
`add(k, v)` returns false and changes nothing when the key `k` is already
live; `try_get(k)` returns the stored value when `k` is present among live
pairs with pairwise-distinct keys and `none` when `k` is absent (reading,
never modifying, the map); and the concrete chain of the spec —
`add(1,100)`, `add(2,200)`, `add(1,999)` — has the third call return false
leaving the map unchanged, with `try_get(1)` still yielding 100. -/
theorem C9_map_unique_keys {V : Type} [Inhabited V] :
    (∀ (m : LinearCollection (KeyValue Nat V)) (k : Nat) (v : V),
      SortedLive mapLt m → m.size ≤ m.data.length →
      (∃ i, i < m.size ∧ (getE m.data i).key = k) →
      FixedMap.add m k v = (m, false)) ∧
    (∀ (m : LinearCollection (KeyValue Nat V)) (k : Nat) (v : V) (i : Nat),
      SortedLive mapLt m → m.size ≤ m.data.length →
      (∀ p q, p < q → q < m.size → (getE m.data p).key ≠ (getE m.data q).key) →
      i < m.size → getE m.data i = { key := k, value := v } →
      FixedMap.try_get m k = some v) ∧
    (∀ (m : LinearCollection (KeyValue Nat V)) (k : Nat),
      SortedLive mapLt m → m.size ≤ m.data.length →
      (∀ i, i < m.size → (getE m.data i).key ≠ k) →
      FixedMap.try_get m k = none) ∧
    (FixedMap.add m0chain 1 100).2 = true ∧
    (FixedMap.add (FixedMap.add m0chain 1 100).1 2 200).2 = true ∧
    FixedMap.add (FixedMap.add (FixedMap.add m0chain 1 100).1 2 200).1 1 999 =
      ((FixedMap.add (FixedMap.add m0chain 1 100).1 2 200).1, false) ∧
    FixedMap.try_get (FixedMap.add (FixedMap.add m0chain 1 100).1 2 200).1 1 =
      some 100 := by
  refine ⟨?_, ?_, ?_, ?_, ?_, ?_, ?_⟩
  · intro m k v hsort hlen hpres
    obtain ⟨i, hi, hk⟩ := hpres
    exact ord_forbid_push_present mapSWO m { key := k, value := v } hsort hlen i hi
      ((mapEq_iff _ _).mpr hk)
  · intro m k v i hsort hlen hdist hi hkv
    have hbeq_i : mapEq (getE m.data i) { key := k, value := (default : V) } = true :=
      (mapEq_iff _ _).mpr (by rw [hkv])
    have hfsp := find_index_spec mapSWO m.data m.size
      { key := k, value := (default : V) } hsort hlen
    have hflt : ord_find_index mapLt mapEq m.data m.size
        { key := k, value := (default : V) } < m.size :=
      hfsp.1.mpr ⟨i, hi, hbeq_i⟩
    have hfbeq := (hfsp.2 hflt).2
    have hkey_f : (getE m.data (ord_find_index mapLt mapEq m.data m.size
        { key := k, value := (default : V) })).key = k :=
      (mapEq_iff _ _).mp hfbeq
    have hkey_i : (getE m.data i).key = k := by rw [hkv]
    have hfi : ord_find_index mapLt mapEq m.data m.size
        { key := k, value := (default : V) } = i := by
      by_contra hne
      rcases Nat.lt_or_ge (ord_find_index mapLt mapEq m.data m.size
        { key := k, value := (default : V) }) i with hlt | hge
      · exact hdist _ i hlt hi (by rw [hkey_f, hkey_i])
      · have hgt : i < ord_find_index mapLt mapEq m.data m.size
            { key := k, value := (default : V) } := by omega
        exact hdist i _ hgt hflt (by rw [hkey_i, hkey_f])
    show (if (ord_find_index mapLt mapEq m.data m.size
          { key := k, value := (default : V) } != m.size) = true
        then some (getE m.data (ord_find_index mapLt mapEq m.data m.size
          { key := k, value := (default : V) })).value
        else none) = some v
    rw [if_pos (by simp only [bne_iff_ne, ne_eq]; omega)]
    rw [hfi, hkv]
  · intro m k hsort hlen habs
    have hle := find_index_le mapLt mapEq m.data m.size
      { key := k, value := (default : V) }
    have hnlt : ¬(ord_find_index mapLt mapEq m.data m.size
        { key := k, value := (default : V) } < m.size) := by
      intro hlt
      obtain ⟨j, hj, hbeq⟩ := (find_index_spec mapSWO m.data m.size
        { key := k, value := (default : V) } hsort hlen).1.mp hlt
      exact habs j hj ((mapEq_iff _ _).mp hbeq)
    show (if (ord_find_index mapLt mapEq m.data m.size
          { key := k, value := (default : V) } != m.size) = true
        then some (getE m.data (ord_find_index mapLt mapEq m.data m.size
          { key := k, value := (default : V) })).value
        else none) = none
    rw [if_neg (by simp only [bne_iff_ne, ne_eq, Decidable.not_not]; omega)]
  · rw [chain_step1]
  · rw [chain_step1]
    show (FixedMap.add m1chain 2 200).2 = true
    rw [chain_step2]
  · rw [chain_step1]
    show FixedMap.add (FixedMap.add m1chain 2 200).1 1 999 =
      ((FixedMap.add m1chain 2 200).1, false)
    rw [chain_step2]
    show FixedMap.add m2chain 1 999 = (m2chain, false)
    rw [chain_step3]
  · rw [chain_step1]
    show FixedMap.try_get (FixedMap.add m1chain 2 200).1 1 = some 100
    rw [chain_step2]
    show FixedMap.try_get m2chain 1 = some 100
    rw [chain_step4]

/-- A concrete one-entry map (key 1 holds 100) for the C9 witness. -/
def mapSample : LinearCollection (KeyValue Nat Nat) where
  valid := true
  capacity := 2
  size := 1
  data := [{ key := 1, value := 100 }, { key := 0, value := 0 }]

/-- Witness for C9: on a map holding key 1 with value 100, a duplicate add
of key 1 is rejected unchanged, `try_get 1` reads 100, `try_get 7` misses. -/
theorem C9_witness :
    FixedMap.add mapSample 1 999 = (mapSample, false) ∧
    FixedMap.try_get mapSample 1 = some 100 ∧
    FixedMap.try_get mapSample 7 = none :=
  ⟨(C9_map_unique_keys (V := Nat)).1 mapSample 1 999
      (by unfold SortedLive sortedB mapSample
          decide)
      (by decide) ⟨0, by decide, rfl⟩,
    (C9_map_unique_keys (V := Nat)).2.1 mapSample 1 100 0
      (by unfold SortedLive sortedB mapSample
          decide)
      (by decide) (fun p q hpq hq => absurd hq (by have hs : mapSample.size = 1 := rfl; omega))
      (by decide) rfl,
    (C9_map_unique_keys (V := Nat)).2.2.1 mapSample 7
      (by unfold SortedLive sortedB mapSample
          decide)
      (by decide) (by decide)⟩

end DuinoCollections
